import Mathlib

/-!
Verification development for the zhili file organizer.

The source of truth is `src/electron/main.ts`.  Strings are modelled as
`List Char` (`Str`), which matches JavaScript strings codepoint-for-codepoint
on the BMP characters the program manipulates.  Node's `path` module (POSIX
flavour) is modelled by `basenameP`, `dirnameP`, `extnameP`, `basenameExtP`
and `joinP`; `path.join` is modelled as plain separator insertion (inputs are
assumed not to carry trailing slashes, which holds for every call site).
-/

namespace ZFO

/-- JavaScript strings, modelled as lists of characters. -/
abbrev Str := List Char

/-- Embed a Lean string literal as a `Str`. -/
def str (s : String) : Str := s.data

/-- `begins s p` : `s` starts with `p` (JS `String.startsWith`). -/
def begins : Str → Str → Bool
  | _, [] => true
  | [], _ :: _ => false
  | c :: s, d :: t => c == d && begins s t

/-- `finishes s p` : `s` ends with `p` (JS `String.endsWith`). -/
def finishes (s p : Str) : Bool := begins s.reverse p.reverse

/-- `hasSub s sub` : `sub` occurs as a contiguous substring of `s`
(JS `String.includes`). -/
def hasSub : Str → Str → Bool
  | [], sub => begins [] sub
  | c :: t, sub => begins (c :: t) sub || hasSub t sub

/-- ASCII lower-casing, as performed by `Char.toLower`; models JS
`toLowerCase` on the ASCII + CJK characters the program uses (CJK characters
are fixed points of both). -/
def lowerS (s : Str) : Str := s.map Char.toLower

/-- Model of POSIX `path.basename(p)` : the part after the last `/`. -/
def basenameP (p : Str) : Str := (p.reverse.takeWhile (fun c => !(c == '/'))).reverse

/-- Model of POSIX `path.dirname(p)`. -/
def dirnameP (p : Str) : Str :=
  match p.reverse.dropWhile (fun c => !(c == '/')) with
  | [] => ['.']
  | _ :: rest => if rest.isEmpty then ['/'] else rest.reverse

/-- Model of POSIX `path.extname(p)` : the suffix of the basename from its
last dot, empty when there is no dot or the only dot is leading. -/
def extnameP (p : Str) : Str :=
  let b := basenameP p
  let suf := (b.reverse.takeWhile (fun c => !(c == '.'))).reverse
  if suf.length + 1 < b.length then '.' :: suf else []

/-- Model of POSIX `path.basename(p, ext)` : the basename with the suffix
`ext` stripped when it is a proper suffix. -/
def basenameExtP (p ext : Str) : Str :=
  let b := basenameP p
  if !ext.isEmpty && !(b == ext) && finishes b ext then b.take (b.length - ext.length) else b

/-- Model of POSIX `path.join(a, b)` for slash-normalized arguments. -/
def joinP (a b : Str) : Str := a ++ '/' :: b

/-- Decimal digit to character. -/
def decChar : Nat → Char
  | 0 => '0' | 1 => '1' | 2 => '2' | 3 => '3' | 4 => '4'
  | 5 => '5' | 6 => '6' | 7 => '7' | 8 => '8' | _ => '9'

/-- Fuel-driven digit expansion (structural recursion so that the kernel can
evaluate it; the fuel is taken ≥ the number being rendered). -/
def natToStrGo : Nat → Nat → Str
  | 0, _ => []
  | fuel + 1, n => if n = 0 then [] else natToStrGo fuel (n / 10) ++ [decChar (n % 10)]

/-- Decimal rendering of a natural number (JS number-to-string for the
non-negative integers the program produces). -/
def natToStr (n : Nat) : Str :=
  if n = 0 then ['0'] else natToStrGo n n

/-- `${n}`.padStart(2, '0')` on a natural number. -/
def pad2 (n : Nat) : Str := if n < 10 then '0' :: natToStr n else natToStr n

/-!
## Regex model

Every regex in `main.ts` is anchored (`^…`) and built from literals, counted
character classes and optional single characters in which adjacent pieces draw
from disjoint character sets, so greedy deterministic matching (no
backtracking) agrees with JS regex semantics.  A matcher consumes a prefix of
the input and returns the remainder, or fails.
-/

/-- Deterministic prefix matcher. -/
abbrev M := Str → Option Str

/-- Case-sensitive literal. -/
def mLit (lit : Str) : M := fun s =>
  if begins s lit then some (s.drop lit.length) else none

/-- Case-insensitive literal (`/i` flag). -/
def mLitCI (lit : Str) : M := fun s =>
  if begins (lowerS s) (lowerS lit) then some (s.drop lit.length) else none

/-- Exactly `n` characters of a class (`X{n}`). -/
def mExact (p : Char → Bool) : Nat → M
  | 0 => fun s => some s
  | n + 1 => fun s =>
    match s with
    | [] => none
    | c :: t => if p c then mExact p n t else none

/-- At least `n` characters of a class, greedy (`X{n,}`, and `X+` as n = 1). -/
def mAtLeast (p : Char → Bool) (n : Nat) : M := fun s =>
  (mExact p n s).map (List.dropWhile p)

/-- An optional character of a class (`X?`), greedy. -/
def mOpt (p : Char → Bool) : M := fun s =>
  match s with
  | [] => some []
  | c :: t => if p c then some t else some (c :: t)

/-- Zero or more characters of a class (`X*`), greedy. -/
def mStar (p : Char → Bool) : M := fun s => some (s.dropWhile p)

/-- Sequencing of matchers. -/
def seqM (ms : List M) : M := fun s => ms.foldl (fun acc m => acc.bind m) (some s)

/-- `^…` (unanchored tail) test. -/
def matchesAt (ms : List M) (s : Str) : Bool := (seqM ms s).isSome

/-- `^…$` (full-string) test. -/
def matchesAll (ms : List M) (s : Str) : Bool := seqM ms s == some []

/-- `\d`. -/
def isDigitC (c : Char) : Bool := c.isDigit
/-- `[a-f0-9]` with `/i`. -/
def isHexCI (c : Char) : Bool := c.isDigit || ('a' ≤ c.toLower && c.toLower ≤ 'f')
/-- `[a-z0-9]` with `/i`. -/
def isAlnumCI (c : Char) : Bool := c.isDigit || ('a' ≤ c.toLower && c.toLower ≤ 'z')
/-- `[a-f0-9-]` with `/i`. -/
def isHexDashCI (c : Char) : Bool := isHexCI c || c == '-'
/-- `[-_]` (same set as `[_-]`). -/
def isSep (c : Char) : Bool := c == '-' || c == '_'
/-- `\s` (the whitespace characters that can occur in file names). -/
def isWsp (c : Char) : Bool := c == ' ' || c == '\t' || c == '\n' || c == '\r'
/-- A single given character. -/
def isCh (d : Char) (c : Char) : Bool := c == d
/-- The class `[文档文本表格幻灯片]`. -/
def newDocCls (c : Char) : Bool := (str "文档本表格幻灯片").contains c

/-- The `messyPatterns` array of `isMessyFileName` in `main.ts`, in source
order.  `/^Copy\s?(of\s?)?/i` tests true exactly when the name starts with
`Copy` (its tail is entirely optional), and is modelled that way. -/
def messyPatterns : List (Str → Bool) := [
  matchesAll [mAtLeast isHexCI 8],
  matchesAll [mAtLeast isAlnumCI 24],
  matchesAll [mAtLeast isHexDashCI 32],
  matchesAt [mLitCI (str "IMG_"), mExact isDigitC 8, mOpt isSep, mExact isDigitC 6],
  matchesAt [mLitCI (str "DSC"), mOpt (isCh '_'), mAtLeast isDigitC 4],
  matchesAt [mLitCI (str "DCIM"), mOpt (isCh '_'), mAtLeast isDigitC 1],
  matchesAt [mLitCI (str "P"), mOpt (isCh '_'), mExact isDigitC 8, mOpt isSep, mExact isDigitC 6],
  matchesAt [mLitCI (str "VID_"), mExact isDigitC 8, mOpt isSep, mExact isDigitC 6],
  matchesAt [mLitCI (str "PHOTO"), mOpt isSep, mAtLeast isDigitC 1],
  matchesAt [mLitCI (str "VIDEO"), mOpt isSep, mAtLeast isDigitC 1],
  matchesAt [mLitCI (str "PXL_"), mExact isDigitC 8, mOpt isSep, mAtLeast isDigitC 1],
  matchesAt [mLitCI (str "Screenshot_"), mAtLeast isDigitC 1],
  matchesAt [mLitCI (str "Snipaste_"), mAtLeast isDigitC 1],
  matchesAt [mLitCI (str "Screen"), mOpt isWsp, mLitCI (str "Shot"), mOpt isWsp, mAtLeast isDigitC 1],
  matchesAt [mLit (str "屏幕截图"), mOpt isWsp, mAtLeast isDigitC 1],
  matchesAt [mLit (str "截屏"), mAtLeast isDigitC 1],
  matchesAt [mLit (str "企业微信截图"), mOpt isSep, mAtLeast isDigitC 1],
  matchesAt [mLit (str "微信图片"), mOpt isSep, mAtLeast isDigitC 1],
  matchesAt [mLit (str "QQ截图"), mAtLeast isDigitC 1],
  matchesAt [mLit (str "钉钉截图"), mOpt isSep, mAtLeast isDigitC 1],
  matchesAt [mLit (str "飞书截图"), mOpt isSep, mAtLeast isDigitC 1],
  matchesAt [mLit (str "腾讯会议截图"), mOpt isSep, mAtLeast isDigitC 1],
  matchesAt [mLitCI (str "Wechat"), mOpt isSep, mAtLeast isDigitC 1],
  matchesAll [mAtLeast isDigitC 13],
  matchesAll [mExact isDigitC 10],
  matchesAll [mExact isDigitC 8, mOpt isSep, mExact isDigitC 6],
  matchesAll [mLitCI (str "tmp"), mOpt isSep, mAtLeast isAlnumCI 1],
  matchesAll [mLitCI (str "temp"), mOpt isSep, mAtLeast isAlnumCI 1],
  matchesAll [mLitCI (str "download"), mOpt isSep, mOpt (isCh '('), mStar isDigitC, mOpt (isCh ')')],
  matchesAll [mLitCI (str "untitled"), mOpt isSep, mStar isDigitC],
  matchesAll [mLitCI (str "unnamed"), mOpt isSep, mStar isDigitC],
  matchesAll [mLit (str "新建"), mStar newDocCls, mOpt isSep, mStar isDigitC],
  matchesAll [mLit (str "未命名"), mOpt isSep, mStar isDigitC],
  matchesAll [mLit (str "副本"), mOpt isSep, mStar isDigitC],
  matchesAll [mLit (str "文档"), mStar isDigitC],
  matchesAt [mLitCI (str "Copy")],
  matchesAt [mLit (str "复制")],
  matchesAll [mExact (isCh '(') 1, mAtLeast isDigitC 1, mExact (isCh ')') 1],
  matchesAt [mExact isAlnumCI 8, mExact (isCh '-') 1, mExact isAlnumCI 4, mExact (isCh '-') 1, mExact isAlnumCI 4]
]

/-- `isMessyFileName` from `main.ts`. -/
def isMessyFileName (fileName : Str) : Bool :=
  let ext := extnameP fileName
  let name := basenameExtP fileName ext
  if name.length < 4 then false
  else messyPatterns.any (fun pat => pat name)

/-!
## Classification (`main.ts`)
-/

/-- `isShortcutOrLink` from `main.ts`. -/
def isShortcutOrLink (fileName : Str) : Bool :=
  [str ".lnk", str ".desktop", str ".url", str ".webloc"].contains (lowerS (extnameP fileName))

/-- `isDocumentFile` from `main.ts`. -/
def isDocumentFile (ext : Str) : Bool :=
  [str ".doc", str ".docx", str ".pdf", str ".txt", str ".rtf", str ".odt", str ".md",
   str ".xls", str ".xlsx", str ".csv",
   str ".ppt", str ".pptx", str ".key"].contains (lowerS ext)

/-- The `extCategoryMap` record of `main.ts` as an association list. -/
def extCategoryMap : List (Str × Str) :=
  ([".jpg", ".jpeg", ".png", ".gif", ".bmp", ".webp", ".svg", ".ico",
    ".tiff", ".raw", ".heic", ".heif"].map (fun e => (str e, str "图片"))) ++
  ([".mp4", ".avi", ".mov", ".wmv", ".flv", ".mkv", ".webm", ".m4v",
    ".rmvb", ".rm", ".3gp"].map (fun e => (str e, str "视频"))) ++
  ([".mp3", ".wav", ".flac", ".aac", ".ogg", ".wma", ".m4a", ".ape"].map
    (fun e => (str e, str "音频"))) ++
  ([".doc", ".docx", ".pdf", ".txt", ".rtf", ".odt", ".md", ".epub",
    ".xls", ".xlsx", ".csv", ".ppt", ".pptx", ".key"].map (fun e => (str e, str "文档"))) ++
  ([".zip", ".rar", ".7z", ".tar", ".gz", ".bz2", ".xz"].map (fun e => (str e, str "压缩包"))) ++
  ([".js", ".jsx", ".ts", ".tsx", ".py", ".java", ".c", ".cpp", ".h", ".hpp",
    ".css", ".scss", ".less", ".html", ".htm", ".vue", ".json", ".xml", ".sql",
    ".sh", ".bat", ".ps1", ".go", ".rs", ".rb", ".php", ".swift", ".kt",
    ".scala", ".r", ".m", ".lua", ".yml", ".yaml", ".toml", ".ini"].map
    (fun e => (str e, str "代码"))) ++
  ([".exe", ".msi", ".dmg", ".app", ".apk", ".deb", ".rpm", ".pkg"].map
    (fun e => (str e, str "程序"))) ++
  ([".lnk", ".desktop", ".url", ".webloc"].map (fun e => (str e, str "快捷方式")))

/-- Lookup in a string-keyed association list (JS object / Map lookup). -/
def lookupA (m : List (Str × Str)) (k : Str) : Option Str :=
  (m.find? (fun e => e.1 == k)).map (fun e => e.2)

/-- `codeProjectFolders` from `main.ts`. -/
def codeProjectFolders : List Str :=
  ["node_modules", "src", "dist", "build", "lib", "bin", "out", "target",
   "test", "tests", "__tests__", "spec", "specs", "coverage",
   ".git", ".svn", ".hg", ".vscode", ".idea",
   "packages", "vendor", "venv", "env", ".env", "__pycache__"].map str

/-- `keywordRules` from `main.ts`, in source order. -/
def keywordRules : List (List Str × Str) :=
  [(["发票", "invoice", "receipt", "收据"].map str, str "发票"),
   (["合同", "contract", "协议", "agreement"].map str, str "合同"),
   (["截图", "screenshot", "snip", "capture"].map str, str "截图"),
   (["说明书", "manual", "guide", "指南", "教程"].map str, str "说明书"),
   (["简历", "resume", "cv"].map str, str "文档"),
   (["报告", "report"].map str, str "文档")]

/-- `folderKeywordRules` from `main.ts`, in source order. -/
def folderKeywordRules : List (List Str × Str) :=
  [(["图片", "images", "photos", "pictures", "img", "pic", "照片", "相册"].map str, str "图片"),
   (["视频", "videos", "movies", "电影", "影片", "video"].map str, str "视频"),
   (["音乐", "music", "audio", "歌曲", "songs"].map str, str "音频"),
   (["文档", "documents", "docs", "资料"].map str, str "文档"),
   (["代码", "code", "source", "project", "projects", "项目", "开发"].map str, str "代码"),
   (["下载", "downloads"].map str, str "下载"),
   (["备份", "backup", "backups"].map str, str "备份"),
   (["程序", "software", "apps", "applications", "软件"].map str, str "程序")]

/-- Does a keyword rule fire on the lower-cased base name? -/
def ruleHits (lowerName : Str) (r : List Str × Str) : Bool :=
  r.1.any (fun k => hasSub lowerName (lowerS k))

/-- `classifyFile` from `main.ts`. -/
def classifyFile (fileName : Str) (isDirectory : Bool) (isSymlink : Bool) : Str :=
  let ext := lowerS (extnameP fileName)
  let lowerName := lowerS (basenameExtP fileName ext)
  if isSymlink then str "快捷方式"
  else if isDirectory then
    if codeProjectFolders.any (fun k => lowerName == k) then str "代码"
    else
      match folderKeywordRules.find? (ruleHits lowerName) with
      | some r => r.2
      | none => str "文件夹"
  else if isShortcutOrLink fileName then str "快捷方式"
  else
    match keywordRules.find? (ruleHits lowerName) with
    | some r => r.2
    | none =>
      if ([".jpg", ".jpeg", ".png", ".gif", ".webp"].map str).contains ext &&
         (hasSub lowerName (str "screenshot") || hasSub lowerName (str "截图") ||
          hasSub lowerName (str "screen") || begins lowerName (str "snip")) then
        str "截图"
      else (lookupA extCategoryMap ext).getD (str "其他")

/-!
## Rename synthesis (`main.ts`)
-/

/-- A JS `Date`, reduced to the fields the program reads:
`getFullYear()`, `getMonth()` (0-based) and `getDate()`. -/
structure JDate where
  year : Nat
  month0 : Nat
  day : Nat
deriving DecidableEq

/-- Take exactly `n` digit characters, returning them and the rest. -/
def takeDigits : Nat → Str → Option (Str × Str)
  | 0, s => some ([], s)
  | _ + 1, [] => none
  | n + 1, c :: t =>
    if c.isDigit then (takeDigits n t).map (fun pr => (c :: pr.1, pr.2)) else none

/-- Skip one `[-_]` separator if present (`[-_]?`). -/
def skipSep : Str → Str
  | [] => []
  | c :: t => if isSep c then t else c :: t

/-- Match `(\d{4})[-_]?(\d{2})[-_]?(\d{2})` at the head of the input and
return the concatenated capture groups (the `match[1].length === 4` branch of
`extractDateFromFile`). -/
def matchD1At (s : Str) : Option Str :=
  (takeDigits 4 s).bind fun (y : Str × Str) =>
  (takeDigits 2 (skipSep y.2)).bind fun (mo : Str × Str) =>
  (takeDigits 2 (skipSep mo.2)).map fun (d : Str × Str) => y.1 ++ mo.1 ++ d.1

/-- Consume one mandatory `[-_]` separator. -/
def reqSep : Str → Option Str
  | [] => none
  | c :: t => if isSep c then some t else none

/-- Match `(\d{2})[-_](\d{2})[-_](\d{4})` at the head of the input and return
`match[3] ++ match[1] ++ match[2]` (the other branch of
`extractDateFromFile`). -/
def matchD2At (s : Str) : Option Str :=
  (takeDigits 2 s).bind fun (mo : Str × Str) =>
  (reqSep mo.2).bind fun (s1 : Str) =>
  (takeDigits 2 s1).bind fun (d : Str × Str) =>
  (reqSep d.2).bind fun (s2 : Str) =>
  (takeDigits 4 s2).map fun (y : Str × Str) => y.1 ++ mo.1 ++ d.1

/-- Leftmost (JS unanchored) search with a positional matcher. -/
def searchM (m : Str → Option Str) : Str → Option Str
  | [] => m []
  | c :: t =>
    match m (c :: t) with
    | some tok => some tok
    | none => searchM m t

/-- `${d.getFullYear()}${pad2 (getMonth d + 1)}${pad2 (getDate d)}`. -/
def renderDate (d : JDate) : Str := natToStr d.year ++ pad2 (d.month0 + 1) ++ pad2 d.day

/-- `extractDateFromFile` from `main.ts`.  The wall clock read by the
`new Date()` fallback is injected as `today`. -/
def extractDateFromFile (fileName : Str) (modifiedTime : Option JDate) (today : JDate) : Str :=
  let name := basenameExtP fileName (extnameP fileName)
  match searchM matchD1At name with
  | some tok => tok
  | none =>
    match searchM matchD2At name with
    | some tok => tok
    | none =>
      match modifiedTime with
      | some d => renderDate d
      | none => renderDate today

/-- Strip the first matching alternative of a `replace(/^(…|…)/, '')`. -/
def altStrip (alts : List M) (s : Str) : Str := (alts.findSome? (fun m => m s)).getD s

/-- JS `String.trim` for the whitespace that occurs here. -/
def trimS (s : Str) : Str := ((s.dropWhile isWsp).reverse.dropWhile isWsp).reverse

/-- The character set kept by `cleanFileName`:
`[一-龥a-zA-Z0-9\-_]`. -/
def charKeep (c : Char) : Bool :=
  (0x4e00 ≤ c.toNat && c.toNat ≤ 0x9fa5) || ('a' ≤ c && c ≤ 'z') ||
  ('A' ≤ c && c ≤ 'Z') || c.isDigit || c == '-' || c == '_'

/-- `cleanFileName` from `main.ts`. -/
def cleanFileName (fileName : Str) : Str :=
  let ext := extnameP fileName
  let name := basenameExtP fileName ext
  let n1 := altStrip
    [mLitCI (str "IMG_"), seqM [mLitCI (str "DSC"), mOpt (isCh '_')], mLitCI (str "VID_"),
     mLitCI (str "Screenshot_"), mLitCI (str "Snipaste_"), mLitCI (str "P_"),
     mLitCI (str "DCIM_")] name
  let n2 := ((seqM [mExact isDigitC 8, mOpt isSep, mExact isDigitC 6, mOpt isSep]) n1).getD n1
  let n3 := ((seqM [mAtLeast isDigitC 13, mOpt isSep]) n2).getD n2
  let n4 := n3.filter charKeep
  let n5 := if 30 < n4.length then n4.take 30 else n4
  trimS n5

/-!
## Plan building: `ai:analyzeFiles` (`main.ts`)

The model covers the deterministic local rule engine, i.e. the
`isOpencodeAvailable = false` path; per the spec the external oracle is an
optional enhancement that must not change the plan-building contract.
-/

/-- Input file record of the `ai:analyzeFiles` handler.  The optional JS
fields `isDirectory`/`isSymlink` are compared with `=== true` in the source,
so they are modelled as plain booleans. -/
structure InFile where
  name : Str
  path : Str
  extension : Str
  size : Nat
  isDirectory : Bool
  isSymlink : Bool
  modifiedTime : Option JDate
deriving DecidableEq

/-- Output record of `ai:analyzeFiles` (the constant `confidence: 0.8`
floating-point field is omitted). -/
structure AnalyzeResult where
  path : Str
  category : Str
  suggestedName : Str
  needsRename : Bool
  needsMove : Bool
  isShortcut : Bool
deriving DecidableEq

/-- `categoryCount[category] = (categoryCount[category] || 0) + 1`, on an
association list in key-insertion order (JS object key order for these
non-numeric keys). -/
def bump (m : List (Str × Nat)) (k : Str) : List (Str × Nat) :=
  match m with
  | [] => [(k, 1)]
  | (q, n) :: t => if q = k then (q, n + 1) :: t else (q, n) :: bump t k

/-- The suggested-name synthesis inside the second pass of
`ai:analyzeFiles` (the `needsRename` branch); `user` is `currentUser`. -/
def suggestName (f : InFile) (category : Str) (user : Str) (today : JDate) : Str :=
  let dateStr := extractDateFromFile f.name f.modifiedTime today
  let cleanName := cleanFileName f.name
  let ext := f.extension
  if isDocumentFile ext then
    if !cleanName.isEmpty then dateStr ++ '_' :: user ++ '_' :: cleanName ++ ext
    else dateStr ++ '_' :: user ++ '_' :: str "文档" ++ ext
  else if category == str "截图" then dateStr ++ '_' :: str "截图" ++ ext
  else if !cleanName.isEmpty then dateStr ++ '_' :: cleanName ++ ext
  else dateStr ++ '_' :: (if !(category == str "其他") then category else str "文件") ++ ext

/-- The two-pass body of the `ai:analyzeFiles` handler: classify and tally,
decide which categories get folders (count ≥ 3, excluding 快捷方式 and 其他),
then emit per-file results.  Returns `(results, categoriesNeedingFolders)`. -/
def analyzeFiles (files : List InFile) (user : Str) (today : JDate) :
    List AnalyzeResult × List Str :=
  let classified := files.map (fun f => (f, classifyFile f.name f.isDirectory f.isSymlink))
  let counts := (classified.filter (fun fc => !fc.1.isDirectory)).foldl
    (fun m fc => bump m fc.2) []
  let cnf := (counts.filter (fun cn =>
    decide (3 ≤ cn.2) && !(cn.1 == str "快捷方式") && !(cn.1 == str "其他"))).map
    (fun cn => cn.1)
  let results := classified.map (fun fc =>
    let f := fc.1
    let isShortcut := isShortcutOrLink f.name || f.isSymlink
    let needsMove := !isShortcut && !f.isDirectory && cnf.contains fc.2
    let needsRename := !f.isDirectory && !isShortcut && isMessyFileName f.name
    let suggestedName := if needsRename then suggestName f fc.2 user today else f.name
    ⟨f.path, fc.2, suggestedName, needsRename, needsMove, isShortcut⟩)
  (results, cnf)

/-!
## Duplicate detection: `fs:detectDuplicates` (`main.ts`)

`calculateFileHash` (a streaming MD5 of the file's bytes) is modelled as an
oracle `hash : Str → Option Str`; `none` models an unreadable file (the
caught `catch` branch).
-/

/-- Input record of `fs:detectDuplicates`. -/
structure DupIn where
  path : Str
  name : Str
  size : Nat
deriving DecidableEq

/-- A member of an emitted duplicate group (`{...f, isKeep}`). -/
structure DupMember where
  path : Str
  name : Str
  size : Nat
  isKeep : Bool
deriving DecidableEq

/-- An emitted duplicate group. -/
structure DupGroup where
  hash : Str
  files : List DupMember
deriving DecidableEq

/-- `group.push(file)` under `sizeGroups.set(file.size, group)`: a JS `Map`
keeps first-insertion key order and appends within a group. -/
def addToGroup (m : List (Nat × List DupIn)) (f : DupIn) : List (Nat × List DupIn) :=
  match m with
  | [] => [(f.size, [f])]
  | (s, g) :: t => if s = f.size then (s, g ++ [f]) :: t else (s, g) :: addToGroup t f

/-- The size-partition pass (zero-byte files are skipped). -/
def sizeGroupsOf (files : List DupIn) : List (Nat × List DupIn) :=
  (files.filter (fun f => !(f.size == 0))).foldl addToGroup []

/-- Append a file to its hash bucket (JS `Map` insertion-order semantics). -/
def addToHash (m : List (Str × List DupIn)) (h : Str) (f : DupIn) : List (Str × List DupIn) :=
  match m with
  | [] => [(h, [f])]
  | (k, g) :: t => if k = h then (k, g ++ [f]) :: t else (k, g) :: addToHash t h f

/-- Hash one file into the map; an unreadable file is skipped. -/
def hashStep (hash : Str → Option Str) (m : List (Str × List DupIn)) (f : DupIn) :
    List (Str × List DupIn) :=
  match hash f.path with
  | some h => addToHash m h f
  | none => m

/-- Hash every member of every size group with at least two members. -/
def buildHashMap (hash : Str → Option Str) (groups : List (Nat × List DupIn)) :
    List (Str × List DupIn) :=
  groups.foldl (fun m sg => if 1 < sg.2.length then sg.2.foldl (hashStep hash) m else m) []

/-- `group.map((f, i) => ({...f, isKeep: i === 0}))`. -/
def markKeep : List DupIn → List DupMember
  | [] => []
  | f :: t => ⟨f.path, f.name, f.size, true⟩ :: t.map (fun g => ⟨g.path, g.name, g.size, false⟩)

/-- `fs:detectDuplicates` from `main.ts`. -/
def detectDuplicates (files : List DupIn) (hash : Str → Option Str) : List DupGroup :=
  (buildHashMap hash (sizeGroupsOf files)).filterMap (fun kg =>
    if 1 < kg.2.length then some ⟨kg.1, markKeep kg.2⟩ else none)

/-- Bucket lookup for size groups. -/
def lookupG : List (Nat × List DupIn) → Nat → List DupIn
  | [], _ => []
  | (s, g) :: t, q => if s = q then g else lookupG t q

/-- Bucket lookup for hash buckets. -/
def lookupH : List (Str × List DupIn) → Str → List DupIn
  | [], _ => []
  | (k, g) :: t, q => if k = q then g else lookupH t q

/-!
## Execution engine: `fs:executeOrganize` / `fs:undoOrganize` (`main.ts`)

The filesystem is modelled as an association list of regular files
(path ↦ byte content; the first entry for a path is authoritative) plus the
list of directories.  `fs.promises.rename` is modelled on regular files
(a rename the real filesystem would reject is likewise rejected or — being
wrapped in try/catch at every call site — simply records nothing).
`Date.now()` is modelled as an injected, strictly increasing logical clock.
-/

/-- Modelled filesystem state. -/
structure FS where
  files : List (Str × Str)
  dirs : List Str
deriving DecidableEq

/-- First-entry lookup in the file association list. -/
def lookupF : List (Str × Str) → Str → Option Str
  | [], _ => none
  | (k, w) :: t, q => if k = q then some w else lookupF t q

/-- Content of the regular file at `p`, if any. -/
def fileAt (fs : FS) (p : Str) : Option Str := lookupF fs.files p

/-- Is `p` a directory? -/
def isDirAt (fs : FS) (p : Str) : Bool := fs.dirs.any (fun d => d == p)

/-- `fs.existsSync(p)`. -/
def existsP (fs : FS) (p : Str) : Bool := (fileAt fs p).isSome || isDirAt fs p

/-- Write through the association list: replace the first entry or append. -/
def setEntry : List (Str × Str) → Str → Str → List (Str × Str)
  | [], p, v => [(p, v)]
  | (q, w) :: t, p, v => if q = p then (q, v) :: t else (q, w) :: setEntry t p v

/-- Create/overwrite the file at `p` with content `v`. -/
def setFile (fs : FS) (p v : Str) : FS := ⟨setEntry fs.files p v, fs.dirs⟩

/-- Remove the file at `p`. -/
def delFile (fs : FS) (p : Str) : FS :=
  ⟨fs.files.filter (fun e => !(decide (e.1 = p))), fs.dirs⟩

/-- `fs.promises.rename(src, dst)` on regular files: fails when the source is
not a file or a directory occupies the destination; silently replaces an
existing destination file (POSIX). -/
def renameF (fs : FS) (src dst : Str) : Option FS :=
  match fileAt fs src with
  | some c => if isDirAt fs dst then none else some (setFile (delFile fs src) dst c)
  | none => none

/-- `fs.promises.copyFile(src, dst)`. -/
def copyF (fs : FS) (src dst : Str) : Option FS :=
  match fileAt fs src with
  | some c => if isDirAt fs dst then none else some (setFile fs dst c)
  | none => none

/-- `fs.promises.unlink(p)`. -/
def unlinkF (fs : FS) (p : Str) : Option FS :=
  if (fileAt fs p).isSome then some (delFile fs p) else none

/-- `fs.promises.mkdir(p, { recursive: true })`: succeeds idempotently unless
a regular file occupies the path.  Creation of missing intermediate
directories is not tracked (call sites create one component under an
existing root). -/
def mkdirp (fs : FS) (p : Str) : Option FS :=
  if (fileAt fs p).isSome then none
  else if isDirAt fs p then some fs
  else some ⟨fs.files, p :: fs.dirs⟩

/-- `q` lies strictly under the directory `d`. -/
def under (q d : Str) : Bool := begins q (d ++ ['/'])

/-- Does anything (file or directory) lie strictly under `p`? -/
def anyUnder (fs : FS) (p : Str) : Bool :=
  fs.files.any (fun e => under e.1 p) || fs.dirs.any (fun d => under d p)

/-- `fs.promises.rmdir(p)`: removes an empty directory, else fails. -/
def rmdirF (fs : FS) (p : Str) : Option FS :=
  if isDirAt fs p && !anyUnder fs p then
    some ⟨fs.files, fs.dirs.filter (fun d => !(d == p))⟩
  else none

/-- One entry of `plan.files` in `fs:executeOrganize`. -/
structure PlanFile where
  path : Str
  category : Str
  newName : Str
  needsMove : Bool
  needsRename : Bool
deriving DecidableEq

/-- The `plan` argument of `fs:executeOrganize`. -/
structure Plan where
  folderPath : Str
  categories : List Str
  files : List PlanFile
  duplicatesToDelete : List Str
deriving DecidableEq

/-- The `type` field of an operation-log entry. -/
inductive OpType
  | move
  | rename
  | delete
  | mkdir
deriving DecidableEq

/-- One entry of the `operations` array (`from` is `src` here, `to` is
`dst`). -/
structure Op where
  type : OpType
  src : Str
  dst : Option Str
  backupPath : Option Str
deriving DecidableEq

/-- `path.basename(duplicatePath) + '_' + Date.now()`. -/
def backupName (d : Str) (t : Nat) : Str := basenameP d ++ '_' :: natToStr t

/-- Phase 1 loop body: create one category directory if absent and record a
`mkdir` operation (the `createdDirs` set grows exactly when an operation is
recorded, so its size equals the number of `mkdir` operations). -/
def execDirsStep (folder : Str) (st : FS × List Op) (cat : Str) : FS × List Op :=
  let cp := joinP folder cat
  if existsP st.1 cp then st
  else (⟨st.1.files, cp :: st.1.dirs⟩, st.2 ++ [⟨OpType.mkdir, cp, none, none⟩])

/-- The target path computed for one planned file. -/
def targetOf (folder : Str) (f : PlanFile) : Str :=
  if f.needsMove then
    joinP (joinP folder f.category) (if f.needsRename then f.newName else basenameP f.path)
  else if f.needsRename then joinP (dirnameP f.path) f.newName
  else f.path

/-- The `k`-th conflict candidate `${base}_${k}${ext}` in the target's
directory. -/
def candidate (target : Str) (k : Nat) : Str :=
  joinP (dirnameP target)
    (basenameExtP target (extnameP target) ++ '_' :: natToStr k ++ extnameP target)

/-- The conflict-resolution `while (fs.existsSync(finalPath))` loop, counter
starting at `k`; the fuel argument is an upper bound on the iterations
needed (taken larger than the number of existing paths). -/
def resolveGo (fs : FS) (target : Str) : Nat → Nat → Str
  | 0, k => candidate target k
  | fuel + 1, k =>
    if existsP fs (candidate target k) then resolveGo fs target fuel (k + 1)
    else candidate target k

/-- Conflict resolution: the target itself when free, else the first free
`_k`-suffixed candidate, k = 1, 2, …. -/
def resolveConflict (fs : FS) (target : Str) : Str :=
  if existsP fs target then resolveGo fs target (fs.files.length + fs.dirs.length + 1) 1
  else target

/-- Phase 2 loop body: move/rename one planned file; a failure is caught and
records nothing. -/
def execFileStep (folder : Str) (st : FS × List Op) (f : PlanFile) : FS × List Op :=
  let target := targetOf folder f
  if target == f.path then st
  else
    let fin := resolveConflict st.1 target
    match renameF st.1 f.path fin with
    | some fs2 =>
      (fs2, st.2 ++ [⟨if f.needsMove then OpType.move else OpType.rename, f.path, some fin, none⟩])
    | none => st

/-- Phase 3 loop body: back up one duplicate, then remove it; a failure is
caught and records nothing.  The third component is the logical clock. -/
def execDupStep (bdir : Str) (st : FS × List Op × Nat) (d : Str) : FS × List Op × Nat :=
  let t := st.2.2
  let b := joinP bdir (backupName d t)
  match copyF st.1 d b with
  | none => (st.1, st.2.1, t + 1)
  | some fs1 =>
    match unlinkF fs1 d with
    | none => (fs1, st.2.1, t + 1)
    | some fs2 => (fs2, st.2.1 ++ [⟨OpType.delete, d, none, some b⟩], t + 1)

/-- The result record of `fs:executeOrganize` (the `error` message text of
the failure branch is environment-specific and not modelled). -/
structure ExecResult where
  success : Bool
  movedFiles : Nat
  renamedFiles : Nat
  deletedFiles : Nat
  createdDirs : Nat
deriving DecidableEq

/-- The result record of `fs:undoOrganize`. -/
structure UndoResult where
  success : Bool
  error : Option Str
  restoredFiles : Nat
deriving DecidableEq

/-- The engine's process-wide state: the filesystem and `undoStack`
(head = most recently pushed log). -/
structure Engine where
  fs : FS
  undoStack : List (List Op)
deriving DecidableEq

/-- Count operations of one type. -/
def countOps (ty : OpType) (ops : List Op) : Nat := ops.countP (fun o => o.type == ty)

/-- `fs:executeOrganize`.  `tempDir` models `app.getPath('temp')`; `t0` is
the logical clock value of the first `Date.now()` call (used in the backup
directory's name), and the k-th duplicate's backup name uses `t0 + 1 + k`. -/
def executeOrganize (tempDir : Str) (t0 : Nat) (e : Engine) (plan : Plan) :
    Engine × ExecResult :=
  let bdir := joinP tempDir (str "zhili-backup-" ++ natToStr t0)
  match mkdirp e.fs bdir with
  | none => (e, ⟨false, 0, 0, 0, 0⟩)
  | some fs0 =>
    let st1 := plan.categories.foldl (execDirsStep plan.folderPath) (fs0, [])
    let st2 := plan.files.foldl (execFileStep plan.folderPath) st1
    let st3 := plan.duplicatesToDelete.foldl (execDupStep bdir) (st2.1, st2.2, t0 + 1)
    (⟨st3.1, st3.2.1 :: e.undoStack⟩,
     ⟨true, countOps OpType.move st3.2.1, countOps OpType.rename st3.2.1,
      countOps OpType.delete st3.2.1, countOps OpType.mkdir st3.2.1⟩)

/-- One reversal step of `fs:undoOrganize` (the loop body); the second
component is the `restored` counter.  Every failure is caught and skipped. -/
def undoOp (st : FS × Nat) (op : Op) : FS × Nat :=
  match op.type with
  | OpType.move | OpType.rename =>
    match op.dst with
    | some t =>
      match renameF st.1 t op.src with
      | some fs2 => (fs2, st.2 + 1)
      | none => st
    | none => st
  | OpType.delete =>
    match op.backupPath with
    | some b =>
      match copyF st.1 b op.src with
      | some fs1 =>
        match unlinkF fs1 b with
        | some fs2 => (fs2, st.2 + 1)
        | none => (fs1, st.2)
      | none => st
    | none => st
  | OpType.mkdir =>
    match rmdirF st.1 op.src with
    | some fs2 => (fs2, st.2)
    | none => st

/-- `fs:undoOrganize`: pop the most recent log and replay its operations in
strict reverse order, best-effort. -/
def undoOrganize (e : Engine) : Engine × UndoResult :=
  match e.undoStack with
  | [] => (e, ⟨false, some (str "没有可撤销的操作"), 0⟩)
  | ops :: rest =>
    let st := ops.reverse.foldl undoOp (e.fs, 0)
    (⟨st.1, rest⟩, ⟨true, none, st.2⟩)

/-!
## Theorems
-/

/-- Claim C10: calling undo when the undo stack is empty returns a failure
result carrying the error message 没有可撤销的操作, performs no filesystem
operation (the engine state, including its filesystem, is returned
unchanged), and the stack remains empty. -/
theorem claim_C10 (e : Engine) (h : e.undoStack = []) :
    undoOrganize e = (e, ⟨false, some (str "没有可撤销的操作"), 0⟩) := by
  unfold undoOrganize
  rw [h]

/-!
### String-prefix lemmas (used by the round-trip analysis, claim C1)
-/

theorem bool_ne_false (b : Bool) (h : ¬ b = false) : b = true := by
  cases b
  · exact absurd rfl h
  · rfl

theorem lookupF_isSome_mem (l : List (Str × Str)) (p : Str)
    (h : (lookupF l p).isSome = true) : p ∈ l.map Prod.fst := by
  induction l with
  | nil => simp [lookupF] at h
  | cons a t ih =>
    obtain ⟨k, w⟩ := a
    by_cases hk : k = p
    · subst hk
      simp
    · rw [lookupF, if_neg hk] at h
      simp only [List.map_cons]
      exact List.mem_cons_of_mem _ (ih h)

theorem begins_iff_exists (s p : Str) : begins s p = true ↔ ∃ r, s = p ++ r := by
  induction p generalizing s with
  | nil => simp [begins]
  | cons c t ih =>
    cases s with
    | nil =>
      simp only [begins, List.cons_append]
      constructor
      · intro h; cases h
      · rintro ⟨r, hr⟩; cases hr
    | cons a u =>
      simp only [begins, Bool.and_eq_true, beq_iff_eq, ih, List.cons_append,
        List.cons.injEq]
      constructor
      · rintro ⟨rfl, r, rfl⟩
        exact ⟨r, rfl, rfl⟩
      · rintro ⟨r, rfl, rfl⟩
        exact ⟨rfl, r, rfl⟩

theorem begins_append_self (p r : Str) : begins (p ++ r) p = true :=
  (begins_iff_exists _ _).mpr ⟨r, rfl⟩

theorem under_self (p : Str) : under p p = false := by
  by_contra h
  have h2 := (begins_iff_exists _ _).mp (bool_ne_false _ h)
  obtain ⟨r, hr⟩ := h2
  have := congrArg List.length hr
  simp [List.length_append] at this

theorem begins_weaken (s p q : Str) (h : begins s (p ++ q) = true) : begins s p = true := by
  obtain ⟨r, hr⟩ := (begins_iff_exists _ _).mp h
  exact (begins_iff_exists _ _).mpr ⟨q ++ r, by rw [hr, List.append_assoc]⟩

theorem begins_append_cancel (a x y : Str) :
    begins (a ++ x) (a ++ y) = begins x y := by
  induction a with
  | nil => rfl
  | cons c t ih => simp [begins, ih]

/-- `d` strictly under a category directory implies `d` strictly under the
organize root. -/
theorem under_joinP_weaken (d folder cat : Str) (h : under d (joinP folder cat) = true) :
    under d folder = true := by
  rw [under, joinP] at h
  rw [under]
  apply begins_weaken d (folder ++ ['/']) (cat ++ ['/'])
  rw [show (folder ++ ['/']) ++ (cat ++ ['/']) = (folder ++ '/' :: cat) ++ ['/'] by
    simp [List.append_assoc]]
  exact h

/-- Two slash-free category names cannot create nested directories. -/
theorem under_joinP_joinP (folder c c2 : Str) (hc : '/' ∉ c2)
    (h : under (joinP folder c2) (joinP folder c) = true) : False := by
  rw [under, joinP, joinP] at h
  rw [show (folder ++ '/' :: c) ++ ['/'] = (folder ++ ['/']) ++ (c ++ ['/']) by
    simp [List.append_assoc],
    show folder ++ '/' :: c2 = (folder ++ ['/']) ++ c2 by simp [List.append_assoc]] at h
  rw [begins_append_cancel] at h
  obtain ⟨r, hr⟩ := (begins_iff_exists _ _).mp h
  apply hc
  rw [hr]
  simp

/-- The proper directory prefixes of a path: all `q.take i` with `q.get? i`
a slash. -/
def ancestors (q : Str) : List Str :=
  (List.range q.length).filterMap
    (fun i => if q.get? i = some '/' then some (q.take i) else none)

theorem under_iff_ancestors (q e : Str) : under q e = true ↔ e ∈ ancestors q := by
  constructor
  · intro h
    obtain ⟨r, hr⟩ := (begins_iff_exists _ _).mp h
    rw [List.append_assoc] at hr
    simp only [ancestors, List.mem_filterMap, List.mem_range]
    refine ⟨e.length, ?_, ?_⟩
    · rw [hr]
      simp [List.length_append]
    · rw [hr, List.get?_append_right le_rfl]
      simp [List.take_left]
  · intro h
    simp only [ancestors, List.mem_filterMap, List.mem_range] at h
    obtain ⟨i, hi, hif⟩ := h
    by_cases hslash : q.get? i = some '/'
    · rw [if_pos hslash] at hif
      cases hif
      rw [under]
      apply (begins_iff_exists _ _).mpr
      refine ⟨q.drop (i + 1), ?_⟩
      have hlt : i < q.length := hi
      have hdrop : q.drop i = q[i] :: q.drop (i + 1) := List.drop_eq_getElem_cons hlt
      have hqi : q[i] = '/' := by
        have := List.getElem?_eq_getElem hlt
        rw [← List.get?_eq_getElem?] at this
        rw [this] at hslash
        exact (Option.some.inj hslash)
      conv_lhs => rw [← List.take_append_drop i q]
      rw [hdrop, hqi]
      simp
    · rw [if_neg hslash] at hif
      cases hif

theorem mem_lookupF_isSome (l : List (Str × Str)) (q w : Str) (h : (q, w) ∈ l) :
    (lookupF l q).isSome = true := by
  induction l with
  | nil => cases h
  | cons a t ih =>
    obtain ⟨k, v⟩ := a
    by_cases hk : k = q
    · simp [lookupF, hk]
    · rw [lookupF, if_neg hk]
      rcases List.mem_cons.mp h with h2 | h2
      · cases h2; exact absurd rfl hk
      · exact ih h2

theorem isDirAt_mem (fs : FS) (d : Str) (h : d ∈ fs.dirs) : isDirAt fs d = true := by
  simp only [isDirAt, List.any_eq_true]
  exact ⟨d, h, by simp⟩

theorem anyUnder_iff (fs : FS) (p : Str) :
    anyUnder fs p = true ↔
      (∃ q, (fileAt fs q).isSome = true ∧ under q p = true) ∨
      (∃ d, isDirAt fs d = true ∧ under d p = true) := by
  simp only [anyUnder, Bool.or_eq_true, List.any_eq_true]
  constructor
  · rintro (⟨⟨q, w⟩, hmem, hu⟩ | ⟨d, hmem, hu⟩)
    · exact Or.inl ⟨q, mem_lookupF_isSome fs.files q w hmem, hu⟩
    · exact Or.inr ⟨d, isDirAt_mem fs d hmem, hu⟩
  · rintro (⟨q, hsome, hu⟩ | ⟨d, hdir, hu⟩)
    · left
      have hq := lookupF_isSome_mem fs.files q hsome
      obtain ⟨e, he, heq⟩ := List.mem_map.mp hq
      exact ⟨e, he, by rwa [heq]⟩
    · right
      simp only [isDirAt, List.any_eq_true] at hdir
      obtain ⟨d2, hd2, hbeq⟩ := hdir
      rw [beq_iff_eq] at hbeq
      exact ⟨d2, hd2, by rwa [hbeq]⟩

/-!
### Filesystem pointwise lemmas
-/

theorem fileAt_nil (ds : List Str) (q : Str) : fileAt ⟨[], ds⟩ q = none := rfl

theorem lookupF_setEntry (l : List (Str × Str)) (p v q : Str) :
    lookupF (setEntry l p v) q = if q = p then some v else lookupF l q := by
  induction l with
  | nil =>
    show (if p = q then some v else lookupF [] q) = if q = p then some v else lookupF [] q
    by_cases h : p = q
    · simp [h]
    · rw [if_neg h, if_neg (fun h2 => h h2.symm)]
  | cons a t ih =>
    obtain ⟨k, w⟩ := a
    simp only [setEntry]
    by_cases hk : k = p
    · rw [if_pos hk]
      by_cases h : k = q
      · simp only [lookupF, if_pos h, if_pos (hk ▸ h.symm : q = p)]
      · simp only [lookupF, if_neg h,
          if_neg (fun h2 : q = p => h (hk.symm ▸ h2.symm : k = q))]
    · rw [if_neg hk]
      by_cases hq : k = q
      · simp only [lookupF, if_pos hq,
          if_neg (fun h2 : q = p => hk (hq.symm ▸ h2 : k = p))]
      · simp only [lookupF, if_neg hq, ih]

theorem lookupF_filterOut (l : List (Str × Str)) (p q : Str) :
    lookupF (l.filter (fun e => !(decide (e.1 = p)))) q =
      if q = p then none else lookupF l q := by
  induction l with
  | nil => by_cases h : q = p <;> simp [lookupF, h]
  | cons a t ih =>
    obtain ⟨k, w⟩ := a
    simp only [List.filter_cons]
    by_cases hk : k = p
    · rw [if_neg (by simp [hk] : ¬ ((!decide ((k, w).1 = p)) = true)), ih]
      by_cases h : q = p
      · rw [if_pos h, if_pos h]
      · rw [if_neg h, if_neg h, lookupF,
          if_neg (fun h2 : k = q => h (hk ▸ h2.symm : q = p))]
    · rw [if_pos (by simp [hk] : (!decide ((k, w).1 = p)) = true)]
      by_cases hq : k = q
      · simp only [lookupF, if_pos hq,
          if_neg (fun h2 : q = p => hk (hq.symm ▸ h2 : k = p))]
      · simp only [lookupF, if_neg hq, ih]

theorem fileAt_setFile (fs : FS) (p v q : Str) :
    fileAt (setFile fs p v) q = if q = p then some v else fileAt fs q :=
  lookupF_setEntry fs.files p v q

theorem fileAt_delFile (fs : FS) (p q : Str) :
    fileAt (delFile fs p) q = if q = p then none else fileAt fs q :=
  lookupF_filterOut fs.files p q

theorem isDirAt_setFile (fs : FS) (p v q : Str) :
    isDirAt (setFile fs p v) q = isDirAt fs q := rfl

theorem isDirAt_delFile (fs : FS) (p q : Str) :
    isDirAt (delFile fs p) q = isDirAt fs q := rfl


/-!
### Extensional filesystem equivalence (claim C1)
-/

/-- Two modelled filesystems agreeing on every file lookup and every
directory test. -/
def fsEq (a b : FS) : Prop :=
  (∀ p, fileAt a p = fileAt b p) ∧ (∀ d, isDirAt a d = isDirAt b d)

theorem fsEq_refl (a : FS) : fsEq a a := ⟨fun _ => rfl, fun _ => rfl⟩

theorem fsEq_trans {a b c : FS} (h1 : fsEq a b) (h2 : fsEq b c) : fsEq a c :=
  ⟨fun p => (h1.1 p).trans (h2.1 p), fun d => (h1.2 d).trans (h2.2 d)⟩

theorem bool_eq_of_iff {a b : Bool} (h : a = true ↔ b = true) : a = b := by
  cases a <;> cases b <;> simp_all

theorem existsP_congr {a b : FS} (h : fsEq a b) (p : Str) : existsP a p = existsP b p := by
  rw [existsP, existsP, h.1 p, h.2 p]

theorem anyUnder_congr {a b : FS} (h : fsEq a b) (p : Str) :
    anyUnder a p = anyUnder b p := by
  apply bool_eq_of_iff
  rw [anyUnder_iff, anyUnder_iff]
  constructor
  · rintro (⟨q, hq, hu⟩ | ⟨d, hd, hu⟩)
    · exact Or.inl ⟨q, by rw [← h.1 q]; exact hq, hu⟩
    · exact Or.inr ⟨d, by rw [← h.2 d]; exact hd, hu⟩
  · rintro (⟨q, hq, hu⟩ | ⟨d, hd, hu⟩)
    · exact Or.inl ⟨q, by rw [h.1 q]; exact hq, hu⟩
    · exact Or.inr ⟨d, by rw [h.2 d]; exact hd, hu⟩

theorem setFile_congr {a b : FS} (h : fsEq a b) (p v : Str) :
    fsEq (setFile a p v) (setFile b p v) := by
  refine ⟨fun q => ?_, fun d => h.2 d⟩
  rw [fileAt_setFile, fileAt_setFile, h.1 q]

theorem delFile_congr {a b : FS} (h : fsEq a b) (p : Str) :
    fsEq (delFile a p) (delFile b p) := by
  refine ⟨fun q => ?_, fun d => h.2 d⟩
  rw [fileAt_delFile, fileAt_delFile, h.1 q]

theorem isDirAt_filterOut (fs : FS) (p d : Str) :
    isDirAt ⟨fs.files, fs.dirs.filter (fun x => !(x == p))⟩ d =
      (isDirAt fs d && !(d == p)) := by
  by_cases hd : d = p
  · subst hd
    simp only [beq_self_eq_true, Bool.not_true, Bool.and_false]
    simp only [isDirAt, List.any_eq_false]
    intro x hx
    have := (List.mem_filter.mp hx).2
    simp only [Bool.not_eq_true'] at this
    simp [this]
  · rw [show (d == p) = false by simp [hd]]
    simp only [Bool.not_false, Bool.and_true]
    apply bool_eq_of_iff
    simp only [isDirAt, List.any_eq_true]
    constructor
    · rintro ⟨x, hx, hbx⟩
      exact ⟨x, (List.mem_filter.mp hx).1, hbx⟩
    · rintro ⟨x, hx, hbx⟩
      refine ⟨x, List.mem_filter.mpr ⟨hx, ?_⟩, hbx⟩
      rw [beq_iff_eq] at hbx
      simp [hbx, hd]

/-- Option-level lifting of `fsEq`. -/
def optFsEq : Option FS → Option FS → Prop
  | some a, some b => fsEq a b
  | none, none => True
  | _, _ => False

theorem renameF_congr {a b : FS} (h : fsEq a b) (s d : Str) :
    optFsEq (renameF a s d) (renameF b s d) := by
  have h1 := h.1 s
  cases hc : fileAt b s with
  | none =>
    simp only [renameF, h1.trans hc, hc]
    trivial
  | some c =>
    simp only [renameF, h1.trans hc, hc, h.2 d]
    by_cases hd : isDirAt b d
    · simp only [hd, if_true]
      trivial
    · simp only [hd, Bool.false_eq_true, if_false]
      exact setFile_congr (delFile_congr h s) d c

theorem copyF_congr {a b : FS} (h : fsEq a b) (s d : Str) :
    optFsEq (copyF a s d) (copyF b s d) := by
  have h1 := h.1 s
  cases hc : fileAt b s with
  | none =>
    simp only [copyF, h1.trans hc, hc]
    trivial
  | some c =>
    simp only [copyF, h1.trans hc, hc, h.2 d]
    by_cases hd : isDirAt b d
    · simp only [hd, if_true]
      trivial
    · simp only [hd, Bool.false_eq_true, if_false]
      exact setFile_congr h d c

theorem unlinkF_congr {a b : FS} (h : fsEq a b) (p : Str) :
    optFsEq (unlinkF a p) (unlinkF b p) := by
  simp only [unlinkF, h.1 p]
  by_cases hp : (fileAt b p).isSome
  · simp only [hp, if_true]
    exact delFile_congr h p
  · simp only [hp, Bool.false_eq_true, if_false]
    trivial

theorem rmdirF_congr {a b : FS} (h : fsEq a b) (p : Str) :
    optFsEq (rmdirF a p) (rmdirF b p) := by
  simp only [rmdirF, h.2 p, anyUnder_congr h p]
  by_cases hc : (isDirAt b p && !anyUnder b p) = true
  · simp only [hc, if_true]
    refine ⟨fun q => h.1 q, fun d => ?_⟩
    rw [show (⟨a.files, a.dirs.filter (fun x => !(x == p))⟩ : FS) =
      ⟨(⟨a.files, a.dirs⟩ : FS).files, (⟨a.files, a.dirs⟩ : FS).dirs.filter
        (fun x => !(x == p))⟩ from rfl, isDirAt_filterOut]
    rw [show (⟨b.files, b.dirs.filter (fun x => !(x == p))⟩ : FS) =
      ⟨(⟨b.files, b.dirs⟩ : FS).files, (⟨b.files, b.dirs⟩ : FS).dirs.filter
        (fun x => !(x == p))⟩ from rfl, isDirAt_filterOut]
    rw [show ((⟨a.files, a.dirs⟩ : FS)) = a from rfl,
      show ((⟨b.files, b.dirs⟩ : FS)) = b from rfl, h.2 d]
  · simp only [hc, Bool.false_eq_true, if_false]
    trivial

/-- The reversal loop of `fs:undoOrganize` as a fold (over the already
reversed operation list). -/
def undoAll (ops : List Op) (st : FS × Nat) : FS × Nat := ops.foldl undoOp st

theorem undoAll_append (xs ys : List Op) (st : FS × Nat) :
    undoAll (xs ++ ys) st = undoAll ys (undoAll xs st) := List.foldl_append _ _ _ _

theorem undoOp_congr {a b : FS} (h : fsEq a b) (n : Nat) (op : Op) :
    fsEq (undoOp (a, n) op).1 (undoOp (b, n) op).1 ∧
    (undoOp (a, n) op).2 = (undoOp (b, n) op).2 := by
  obtain ⟨ty, src, dst, bp⟩ := op
  cases ty with
  | move | rename =>
    first
    | (cases dst with
       | none => exact ⟨h, rfl⟩
       | some t =>
          have hr := renameF_congr h t src
          cases hA : renameF a t src <;> cases hB : renameF b t src <;>
            rw [hA, hB] at hr
          · simp only [undoOp, hA, hB]
            exact ⟨h, trivial⟩
          · cases hr
          · cases hr
          · simp only [undoOp, hA, hB]
            exact ⟨hr, trivial⟩)
  | delete =>
    cases bp with
    | none => exact ⟨h, rfl⟩
    | some b0 =>
      have hr := copyF_congr h b0 src
      cases hA : copyF a b0 src <;> cases hB : copyF b b0 src <;> rw [hA, hB] at hr
      · simp only [undoOp, hA, hB]
        exact ⟨h, trivial⟩
      · cases hr
      · cases hr
      · rename_i fsA1 fsB1
        have hu := unlinkF_congr hr b0
        cases hA2 : unlinkF fsA1 b0 <;> cases hB2 : unlinkF fsB1 b0 <;>
          rw [hA2, hB2] at hu
        · simp only [undoOp, hA, hB, hA2, hB2]
          exact ⟨hr, trivial⟩
        · cases hu
        · cases hu
        · simp only [undoOp, hA, hB, hA2, hB2]
          exact ⟨hu, trivial⟩
  | mkdir =>
    have hr := rmdirF_congr h src
    cases hA : rmdirF a src <;> cases hB : rmdirF b src <;> rw [hA, hB] at hr
    · simp only [undoOp, hA, hB]
      exact ⟨h, trivial⟩
    · cases hr
    · cases hr
    · simp only [undoOp, hA, hB]
      exact ⟨hr, trivial⟩

theorem undoAll_congr {a b : FS} (ops : List Op) :
    ∀ (n : Nat), fsEq a b →
    fsEq (undoAll ops (a, n)).1 (undoAll ops (b, n)).1 ∧
    (undoAll ops (a, n)).2 = (undoAll ops (b, n)).2 := by
  induction ops generalizing a b with
  | nil => intro n h; exact ⟨h, rfl⟩
  | cons op t ih =>
    intro n h
    have hstep := undoOp_congr h n op
    show fsEq (undoAll t (undoOp (a, n) op)).1 (undoAll t (undoOp (b, n) op)).1 ∧
      (undoAll t (undoOp (a, n) op)).2 = (undoAll t (undoOp (b, n) op)).2
    rw [show undoOp (a, n) op = ((undoOp (a, n) op).1, (undoOp (a, n) op).2) from rfl,
      show undoOp (b, n) op = ((undoOp (b, n) op).1, (undoOp (a, n) op).2) by
        rw [hstep.2]]
    exact ih _ hstep.1

/-!
### Single-operation inversion lemmas (claim C1)
-/

/-- File/directory disjointness: no path is simultaneously a regular file
and a directory (true of any real filesystem state, and preserved by every
modelled operation). -/
def Disj (fs : FS) : Prop := ∀ p, (fileAt fs p).isSome = true → isDirAt fs p = false

theorem existsP_false (fs : FS) (p : Str) (h : existsP fs p = false) :
    fileAt fs p = none ∧ isDirAt fs p = false := by
  cases ho : fileAt fs p with
  | none =>
    refine ⟨rfl, ?_⟩
    rw [existsP, ho] at h
    simpa using h
  | some c =>
    rw [existsP, ho] at h
    simp at h

theorem renameF_some {fs : FS} {src dst c : Str}
    (hs : fileAt fs src = some c) (hd : isDirAt fs dst = false) :
    renameF fs src dst = some (setFile (delFile fs src) dst c) := by
  rw [renameF, hs, hd]
  simp

theorem copyF_some {fs : FS} {src dst c : Str}
    (hs : fileAt fs src = some c) (hd : isDirAt fs dst = false) :
    copyF fs src dst = some (setFile fs dst c) := by
  rw [copyF, hs, hd]
  simp

theorem unlinkF_some {fs : FS} {p c : Str} (hs : fileAt fs p = some c) :
    unlinkF fs p = some (delFile fs p) := by
  rw [unlinkF, hs]
  simp

theorem disj_setFile {fs : FS} (h : Disj fs) {p : Str} (hp : isDirAt fs p = false)
    (v : Str) : Disj (setFile fs p v) := by
  intro q hq
  rw [fileAt_setFile] at hq
  rw [isDirAt_setFile]
  by_cases hqp : q = p
  · rw [hqp]; exact hp
  · rw [if_neg hqp] at hq
    exact h q hq

theorem disj_delFile {fs : FS} (h : Disj fs) (p : Str) : Disj (delFile fs p) := by
  intro q hq
  rw [fileAt_delFile] at hq
  rw [isDirAt_delFile]
  by_cases hqp : q = p
  · rw [if_pos hqp] at hq
    simp at hq
  · rw [if_neg hqp] at hq
    exact h q hq

/-- Undoing a `mkdir` on a directory that was fresh and had nothing beneath
it removes exactly that directory. -/
theorem mkdir_inversion (fs : FS) (cp : Str) (n : Nat)
    (hex : existsP fs cp = false)
    (hfil : ∀ q, (fileAt fs q).isSome = true → under q cp = false)
    (hdir : ∀ d, isDirAt fs d = true → under d cp = false) :
    fsEq (undoOp (⟨fs.files, cp :: fs.dirs⟩, n) ⟨OpType.mkdir, cp, none, none⟩).1 fs ∧
    (undoOp (⟨fs.files, cp :: fs.dirs⟩, n) ⟨OpType.mkdir, cp, none, none⟩).2 = n := by
  have hfs1dir : isDirAt (⟨fs.files, cp :: fs.dirs⟩ : FS) cp = true := by
    simp [isDirAt]
  have hau : anyUnder (⟨fs.files, cp :: fs.dirs⟩ : FS) cp = false := by
    by_contra hc
    rcases (anyUnder_iff _ _).mp (bool_ne_false _ hc) with ⟨q, hq, hu⟩ | ⟨d, hd, hu⟩
    · have : (fileAt fs q).isSome = true := hq
      rw [hfil q this] at hu
      cases hu
    · have : d = cp ∨ isDirAt fs d = true := by
        simp only [isDirAt, List.any_cons, Bool.or_eq_true, beq_iff_eq] at hd
        rcases hd with hd | hd
        · exact Or.inl hd.symm
        · right
          exact hd
      rcases this with rfl | hdd
      · rw [under_self] at hu
        cases hu
      · rw [hdir d hdd] at hu
        cases hu
  have hrm : rmdirF (⟨fs.files, cp :: fs.dirs⟩ : FS) cp =
      some ⟨fs.files, (cp :: fs.dirs).filter (fun x => !(x == cp))⟩ := by
    rw [rmdirF, if_pos (by rw [hfs1dir, hau]; rfl)]
  constructor
  · show fsEq (undoOp _ _).1 fs
    simp only [undoOp, hrm]
    refine ⟨fun q => rfl, fun d => ?_⟩
    rw [show (⟨fs.files, (cp :: fs.dirs).filter (fun x => !(x == cp))⟩ : FS) =
      ⟨(⟨fs.files, cp :: fs.dirs⟩ : FS).files,
       (⟨fs.files, cp :: fs.dirs⟩ : FS).dirs.filter (fun x => !(x == cp))⟩ from rfl,
      isDirAt_filterOut]
    by_cases hd : d = cp
    · rw [hd]
      simp [(existsP_false fs cp hex).2]
    · rw [show ((d == cp) : Bool) = false by simp [hd]]
      simp only [Bool.not_false, Bool.and_true]
      simp only [isDirAt, List.any_cons, Bool.or_eq_true, beq_iff_eq]
      have : ¬ cp = d := fun h2 => hd h2.symm
      simp [this, isDirAt]
  · simp only [undoOp, hrm]

/-- Undoing a recorded move/rename restores the moved file: renaming the
fresh destination back to the source inverts the step exactly. -/
theorem rename_inversion (fs : FS) (src fin c : Str) (ty : OpType) (n : Nat)
    (hty : ty = OpType.move ∨ ty = OpType.rename)
    (hs : fileAt fs src = some c) (hfin : existsP fs fin = false) (hd : Disj fs) :
    fsEq (undoOp (setFile (delFile fs src) fin c, n) ⟨ty, src, some fin, none⟩).1 fs ∧
    (undoOp (setFile (delFile fs src) fin c, n) ⟨ty, src, some fin, none⟩).2 = n + 1 := by
  have hfinparts := existsP_false fs fin hfin
  have hne : ¬ src = fin := by
    intro h2
    rw [h2, hfinparts.1] at hs
    cases hs
  have hval : fileAt (setFile (delFile fs src) fin c) fin = some c := by
    rw [fileAt_setFile, if_pos rfl]
  have hdirsrc : isDirAt (setFile (delFile fs src) fin c) src = false := by
    rw [isDirAt_setFile, isDirAt_delFile]
    exact hd src (by rw [hs]; rfl)
  have hren : renameF (setFile (delFile fs src) fin c) fin src =
      some (setFile (delFile (setFile (delFile fs src) fin c) fin) src c) :=
    renameF_some hval hdirsrc
  have hred : undoOp (setFile (delFile fs src) fin c, n) ⟨ty, src, some fin, none⟩ =
      (setFile (delFile (setFile (delFile fs src) fin c) fin) src c, n + 1) := by
    rcases hty with rfl | rfl
    · simp only [undoOp, hren]
    · simp only [undoOp, hren]
  rw [hred]
  refine ⟨⟨fun q => ?_, fun d => rfl⟩, rfl⟩
  rw [fileAt_setFile]
  by_cases hq : q = src
  · rw [if_pos hq, hq, hs]
  · rw [if_neg hq, fileAt_delFile]
    by_cases hq2 : q = fin
    · rw [if_pos hq2, hq2, hfinparts.1]
    · rw [if_neg hq2, fileAt_setFile, if_neg hq2, fileAt_delFile, if_neg hq]

/-- Undoing a recorded duplicate relocation copies the backup back and
removes the backup file, inverting the step exactly. -/
theorem delete_inversion (fs : FS) (d b c : Str) (n : Nat)
    (hs : fileAt fs d = some c) (hb : existsP fs b = false) (hdisj : Disj fs) :
    copyF fs d b = some (setFile fs b c) ∧
    unlinkF (setFile fs b c) d = some (delFile (setFile fs b c) d) ∧
    fsEq (undoOp (delFile (setFile fs b c) d, n) ⟨OpType.delete, d, none, some b⟩).1 fs ∧
    (undoOp (delFile (setFile fs b c) d, n) ⟨OpType.delete, d, none, some b⟩).2 = n + 1 := by
  have hbparts := existsP_false fs b hb
  have hne : ¬ d = b := by
    intro h2
    rw [h2, hbparts.1] at hs
    cases hs
  have hcopy : copyF fs d b = some (setFile fs b c) := copyF_some hs hbparts.2
  have hulval : fileAt (setFile fs b c) d = some c := by
    rw [fileAt_setFile, if_neg hne, hs]
  have hunlink : unlinkF (setFile fs b c) d = some (delFile (setFile fs b c) d) :=
    unlinkF_some hulval
  have hbval : fileAt (delFile (setFile fs b c) d) b = some c := by
    rw [fileAt_delFile, if_neg (fun h2 : b = d => hne h2.symm), fileAt_setFile,
      if_pos rfl]
  have hddir : isDirAt (delFile (setFile fs b c) d) d = false := by
    rw [isDirAt_delFile, isDirAt_setFile]
    exact hdisj d (by rw [hs]; rfl)
  have hcopyback : copyF (delFile (setFile fs b c) d) b d =
      some (setFile (delFile (setFile fs b c) d) d c) := copyF_some hbval hddir
  have hbval2 : fileAt (setFile (delFile (setFile fs b c) d) d c) b = some c := by
    rw [fileAt_setFile, if_neg (fun h2 : b = d => hne h2.symm), hbval]
  have hunlink2 : unlinkF (setFile (delFile (setFile fs b c) d) d c) b =
      some (delFile (setFile (delFile (setFile fs b c) d) d c) b) :=
    unlinkF_some hbval2
  refine ⟨hcopy, hunlink, ?_, ?_⟩
  · simp only [undoOp, hcopyback, hunlink2]
    refine ⟨fun q => ?_, fun d2 => rfl⟩
    rw [fileAt_delFile]
    by_cases hq : q = b
    · rw [if_pos hq, hq, hbparts.1]
    · rw [if_neg hq, fileAt_setFile]
      by_cases hq2 : q = d
      · rw [if_pos hq2, hq2, hs]
      · rw [if_neg hq2, fileAt_delFile, if_neg hq2, fileAt_setFile, if_neg hq]
  · simp only [undoOp, hcopyback, hunlink2]

theorem bool_ne_true (b : Bool) (h : ¬ b = true) : b = false := by
  cases b
  · rfl
  · exact absurd rfl h

theorem anyUnder_false (fs : FS) (p : Str) (h : anyUnder fs p = false) :
    (∀ en ∈ fs.files, under en.1 p = false) ∧ (∀ d ∈ fs.dirs, under d p = false) := by
  rw [anyUnder] at h
  rcases Bool.or_eq_false_iff.mp h with ⟨h1, h2⟩
  constructor
  · intro en hen
    exact bool_ne_true _ (by
      intro hu
      rw [List.any_eq_false] at h1
      exact h1 en hen hu)
  · intro d hd
    exact bool_ne_true _ (by
      intro hu
      rw [List.any_eq_false] at h2
      exact h2 d hd hu)

theorem isDirAt_true_mem (fs : FS) (d : Str) (h : isDirAt fs d = true) : d ∈ fs.dirs := by
  simp only [isDirAt, List.any_eq_true] at h
  obtain ⟨x, hx, hbx⟩ := h
  rw [beq_iff_eq] at hbx
  exact hbx ▸ hx

theorem renameF_eq_some {fs fs2 : FS} {src dst : Str}
    (h : renameF fs src dst = some fs2) :
    ∃ c, fileAt fs src = some c ∧ isDirAt fs dst = false ∧
      fs2 = setFile (delFile fs src) dst c := by
  cases hc : fileAt fs src with
  | none => rw [renameF, hc] at h; cases h
  | some c =>
    simp only [renameF, hc] at h
    by_cases hd : isDirAt fs dst = true
    · rw [if_pos hd] at h; cases h
    · rw [if_neg hd] at h
      exact ⟨c, rfl, bool_ne_true _ hd, (Option.some.inj h).symm⟩

theorem copyF_eq_some {fs fs2 : FS} {src dst : Str}
    (h : copyF fs src dst = some fs2) :
    ∃ c, fileAt fs src = some c ∧ isDirAt fs dst = false ∧
      fs2 = setFile fs dst c := by
  cases hc : fileAt fs src with
  | none => rw [copyF, hc] at h; cases h
  | some c =>
    simp only [copyF, hc] at h
    by_cases hd : isDirAt fs dst = true
    · rw [if_pos hd] at h; cases h
    · rw [if_neg hd] at h
      exact ⟨c, rfl, bool_ne_true _ hd, (Option.some.inj h).symm⟩

theorem disj_addDir (fs : FS) (cp : Str) (h : Disj fs) (hc : fileAt fs cp = none) :
    Disj ⟨fs.files, cp :: fs.dirs⟩ := by
  intro p hp
  have hp2 : (fileAt fs p).isSome = true := hp
  have hne : ¬ cp = p := by
    intro h2
    rw [h2] at hc
    rw [hc] at hp2
    cases hp2
  have hd := h p hp2
  simp only [isDirAt, List.any_cons, Bool.or_eq_false_iff]
  exact ⟨by simp [hne], hd⟩

theorem files_all_disj (fs : FS)
    (h : fs.files.all (fun en => !(isDirAt fs en.1)) = true) : Disj fs := by
  intro p hp
  obtain ⟨en, hen, heq⟩ := List.mem_map.mp (lookupF_isSome_mem fs.files p hp)
  have h2 := List.all_eq_true.mp h en hen
  rw [← heq]
  simpa using h2

/-- Composing one undo step after the undos of the later operations. -/
theorem undo_compose (final mid fs : FS) (newops : List Op) (op : Op) (n m k : Nat)
    (h1 : fsEq (undoAll newops.reverse (final, n)).1 mid)
    (h2 : (undoAll newops.reverse (final, n)).2 = m)
    (h3 : fsEq (undoOp (mid, m) op).1 fs)
    (h4 : (undoOp (mid, m) op).2 = k) :
    fsEq (undoAll (op :: newops).reverse (final, n)).1 fs ∧
    (undoAll (op :: newops).reverse (final, n)).2 = k := by
  rw [List.reverse_cons, undoAll_append]
  have hX : undoAll newops.reverse (final, n) =
      ((undoAll newops.reverse (final, n)).1, m) := by
    rw [← h2]
  rw [hX]
  have hc := undoOp_congr h1 m op
  exact ⟨fsEq_trans hc.1 h3, hc.2.trans h4⟩

/-!
### Phase lemmas (claim C1)
-/

/-- Phase 1 of `fs:executeOrganize` with its undo: the recorded `mkdir`
operations, replayed in reverse, remove exactly the category directories the
loop created, leave every file in place, and do not touch the restored
counter.  Hypotheses: slash-free category names, nothing lies under any of
the candidate category paths, and every existing directory is either not
under a candidate path or itself a slash-free child of the organize root. -/
theorem phase1_undo (folder : Str) (cats : List Str) :
    ∀ (st : FS × List Op),
    Disj st.1 →
    (∀ c ∈ cats, '/' ∉ c) →
    (∀ c ∈ cats, ∀ en ∈ st.1.files, under en.1 (joinP folder c) = false) →
    (∀ c ∈ cats, ∀ d ∈ st.1.dirs,
      under d (joinP folder c) = false ∨ ∃ c2, '/' ∉ c2 ∧ d = joinP folder c2) →
    ∃ newops,
      (cats.foldl (execDirsStep folder) st).2 = st.2 ++ newops ∧
      (cats.foldl (execDirsStep folder) st).1.files = st.1.files ∧
      Disj (cats.foldl (execDirsStep folder) st).1 ∧
      ∀ n, fsEq (undoAll newops.reverse
          ((cats.foldl (execDirsStep folder) st).1, n)).1 st.1 ∧
        (undoAll newops.reverse
          ((cats.foldl (execDirsStep folder) st).1, n)).2 = n := by
  induction cats with
  | nil =>
    intro st hdisj _ _ _
    exact ⟨[], by simp, rfl, hdisj, fun n => ⟨fsEq_refl _, rfl⟩⟩
  | cons c rest ih =>
    intro st hdisj hsf hfiles hdirs
    obtain ⟨fs, ops0⟩ := st
    rw [List.foldl_cons]
    by_cases hex : existsP fs (joinP folder c) = true
    · have hstep : execDirsStep folder (fs, ops0) c = (fs, ops0) := by
        simp only [execDirsStep]
        rw [if_pos hex]
      rw [hstep]
      exact ih (fs, ops0) hdisj (fun c2 h2 => hsf c2 (List.mem_cons_of_mem _ h2))
        (fun c2 h2 => hfiles c2 (List.mem_cons_of_mem _ h2))
        (fun c2 h2 => hdirs c2 (List.mem_cons_of_mem _ h2))
    · have hexf : existsP fs (joinP folder c) = false := bool_ne_true _ hex
      have hfp := existsP_false fs _ hexf
      have hstep : execDirsStep folder (fs, ops0) c =
          (⟨fs.files, joinP folder c :: fs.dirs⟩,
           ops0 ++ [⟨OpType.mkdir, joinP folder c, none, none⟩]) := by
        simp only [execDirsStep]
        rw [if_neg hex]
      rw [hstep]
      have hdisj2 : Disj (⟨fs.files, joinP folder c :: fs.dirs⟩ : FS) :=
        disj_addDir fs _ hdisj hfp.1
      obtain ⟨newops, hops, hfl, hdisj3, hundo⟩ :=
        ih (⟨fs.files, joinP folder c :: fs.dirs⟩,
            ops0 ++ [⟨OpType.mkdir, joinP folder c, none, none⟩])
          hdisj2
          (fun c2 h2 => hsf c2 (List.mem_cons_of_mem _ h2))
          (fun c2 h2 => hfiles c2 (List.mem_cons_of_mem _ h2))
          (by
            intro c2 h2 d hd
            rcases List.mem_cons.mp hd with rfl | hd2
            · exact Or.inr ⟨c, hsf c (List.mem_cons_self _ _), rfl⟩
            · exact hdirs c2 (List.mem_cons_of_mem _ h2) d hd2)
      refine ⟨⟨OpType.mkdir, joinP folder c, none, none⟩ :: newops, ?_, ?_, hdisj3, ?_⟩
      · rw [hops, List.append_assoc]
        rfl
      · exact hfl
      · intro n
        have hfil2 : ∀ q, (fileAt fs q).isSome = true →
            under q (joinP folder c) = false := by
          intro q hq
          obtain ⟨en, hen, heq⟩ := List.mem_map.mp (lookupF_isSome_mem fs.files q hq)
          rw [← heq]
          exact hfiles c (List.mem_cons_self _ _) en hen
        have hdir2 : ∀ d, isDirAt fs d = true → under d (joinP folder c) = false := by
          intro d hd
          rcases hdirs c (List.mem_cons_self _ _) d (isDirAt_true_mem fs d hd) with
            h | ⟨c3, hc3, rfl⟩
          · exact h
          · by_contra hu
            exact under_joinP_joinP folder c c3 hc3 (bool_ne_false _ hu)
        have hinv := mkdir_inversion fs (joinP folder c) n hexf hfil2 hdir2
        have h1 := hundo n
        exact undo_compose _ _ _ _ _ _ _ _ h1.1 h1.2 hinv.1 hinv.2

/-- Witness for C10 at a concrete engine state. -/
theorem claim_C10_witness :
    undoOrganize ⟨⟨[(str "a.txt", str "X")], [str "d"]⟩, []⟩ =
      (⟨⟨[(str "a.txt", str "X")], [str "d"]⟩, []⟩,
       ⟨false, some (str "没有可撤销的操作"), 0⟩) :=
  claim_C10 ⟨⟨[(str "a.txt", str "X")], [str "d"]⟩, []⟩ rfl

/-- Claim C7: for a non-symlink, non-directory file whose extension is not a
shortcut/link extension, a keyword-rule hit decides the category before the
extension table is ever consulted — the first matching rule's category is
returned whatever the extension maps to; in particular 合同-资料.jpg
classifies as 合同 although `.jpg` maps to 图片 in the extension table. -/
theorem claim_C7 :
    (∀ (name : Str) (r : List Str × Str),
      isShortcutOrLink name = false →
      keywordRules.find?
        (ruleHits (lowerS (basenameExtP name (lowerS (extnameP name))))) = some r →
      classifyFile name false false = r.2) ∧
    classifyFile (str "合同-资料.jpg") false false = str "合同" ∧
    lookupA extCategoryMap (lowerS (extnameP (str "合同-资料.jpg"))) = some (str "图片") := by
  refine ⟨?_, by decide, by decide⟩
  intro name r hs hk
  simp only [classifyFile, hs, hk, Bool.false_eq_true, if_false]

/-- Witness for C7: the general statement applied to the concrete file
合同-资料.jpg, discharging both hypotheses by computation. -/
theorem claim_C7_witness :
    classifyFile (str "合同-资料.jpg") false false =
      (([str "合同", str "contract", str "协议", str "agreement"], str "合同") :
        List Str × Str).2 :=
  claim_C7.1 (str "合同-资料.jpg")
    ([str "合同", str "contract", str "协议", str "agreement"], str "合同")
    (by decide) (by decide)

/-- Claim C4, part 1 of the reasoning: an engine-level failure (the backup
area cannot be created) returns the engine — filesystem and undo stack —
unchanged. -/
theorem exec_fail_engine_unchanged (tempDir : Str) (t0 : Nat) (e : Engine) (plan : Plan)
    (h : (executeOrganize tempDir t0 e plan).2.success = false) :
    (executeOrganize tempDir t0 e plan).1 = e := by
  simp only [executeOrganize] at *
  cases hm : mkdirp e.fs (joinP tempDir (str "zhili-backup-" ++ natToStr t0)) with
  | none => simp [hm]
  | some fs0 => rw [hm] at h; simp at h

/-- Claim C4: an engine-level failure (backup area creation fails) leaves the
undo stack (indeed the whole engine state) unchanged, whereas a per-file
failure is caught: the remaining files are still processed, the run returns
success with correspondingly lower counts, and its log is pushed onto the
undo stack.  The concrete run below has a first file whose source is missing
(its rename fails) and a second that succeeds: the run succeeds with
`renamedFiles = 1` and pushes a one-entry log. -/
theorem claim_C4 :
    (∀ (tempDir : Str) (t0 : Nat) (e : Engine) (plan : Plan),
      (executeOrganize tempDir t0 e plan).2.success = false →
      (executeOrganize tempDir t0 e plan).1 = e) ∧
    (∀ (tempDir : Str) (t0 : Nat) (e : Engine) (plan : Plan),
      (executeOrganize tempDir t0 e plan).2.success = true →
      ∃ log, (executeOrganize tempDir t0 e plan).1.undoStack = log :: e.undoStack) ∧
    (executeOrganize (str "tmp") 5
        ⟨⟨[(str "home/u/good.txt", str "G")], [str "home", str "home/u", str "tmp"]⟩, []⟩
        ⟨str "home/u", [],
         [⟨str "home/u/missing.txt", str "文档", str "m2.txt", false, true⟩,
          ⟨str "home/u/good.txt", str "文档", str "g2.txt", false, true⟩], []⟩ =
      (⟨⟨[(str "home/u/g2.txt", str "G")],
         [str "tmp/zhili-backup-5", str "home", str "home/u", str "tmp"]⟩,
        [[⟨OpType.rename, str "home/u/good.txt", some (str "home/u/g2.txt"), none⟩]]⟩,
       ⟨true, 0, 1, 0, 0⟩)) := by
  refine ⟨exec_fail_engine_unchanged, ?_, by decide⟩
  intro tempDir t0 e plan h
  simp only [executeOrganize] at *
  cases hm : mkdirp e.fs (joinP tempDir (str "zhili-backup-" ++ natToStr t0)) with
  | none => rw [hm] at h; simp at h
  | some fs0 => simp [hm]

/-- Claim C2: in the duplicate-removal loop body of the execution engine
(`execDupStep`, folded by `executeOrganize` over `plan.duplicatesToDelete`),
the original is deleted only after its bytes were successfully copied to the
per-run backup path: when the backup copy fails the step changes nothing, so
the original survives and no operation is recorded; when the original was
deleted, the backup file holds its bytes; and the relocate-duplicate
operation (type `delete`, recording source and backup path) is appended
exactly when both the copy and the removal succeeded. -/
theorem claim_C2 (bdir : Str) (fs : FS) (ops : List Op) (t : Nat) (d : Str) :
    (copyF fs d (joinP bdir (backupName d t)) = none →
      execDupStep bdir (fs, ops, t) d = (fs, ops, t + 1)) ∧
    (∀ c, fileAt fs d = some c →
      fileAt (execDupStep bdir (fs, ops, t) d).1 d = none →
      d ≠ joinP bdir (backupName d t) →
      fileAt (execDupStep bdir (fs, ops, t) d).1 (joinP bdir (backupName d t)) = some c) ∧
    ((∃ fs1 fs2, copyF fs d (joinP bdir (backupName d t)) = some fs1 ∧
        unlinkF fs1 d = some fs2) ↔
      (execDupStep bdir (fs, ops, t) d).2.1 =
        ops ++ [⟨OpType.delete, d, none, some (joinP bdir (backupName d t))⟩]) := by
  set b := joinP bdir (backupName d t) with hb
  refine ⟨?_, ?_, ?_⟩
  · intro hc
    simp [execDupStep, ← hb, hc]
  · intro c hfd hdel hne
    cases hc : copyF fs d b with
    | none =>
      simp only [execDupStep, ← hb, hc] at hdel
      simp [hfd] at hdel
    | some fs1 =>
      have hc' := hc
      simp only [copyF, hfd] at hc'
      by_cases hdir : isDirAt fs b
      · simp [hdir] at hc'
      · simp only [hdir, Bool.false_eq_true, if_false] at hc'
        obtain rfl : setFile fs b c = fs1 := Option.some.inj hc'
        have hval : fileAt (setFile fs b c) d = some c := by
          rw [fileAt_setFile, if_neg hne, hfd]
        cases hu : unlinkF (setFile fs b c) d with
        | none => simp [unlinkF, hval] at hu
        | some fs2 =>
          have hfs2 : fs2 = delFile (setFile fs b c) d := by
            simp [unlinkF, hval] at hu
            exact hu.symm
          simp only [execDupStep, ← hb, hc, hu]
          rw [hfs2, fileAt_delFile, if_neg (Ne.symm hne), fileAt_setFile, if_pos rfl]
  · constructor
    · rintro ⟨fs1, fs2, hc, hu⟩
      simp [execDupStep, ← hb, hc, hu]
    · intro h
      cases hc : copyF fs d b with
      | none => simp [execDupStep, ← hb, hc] at h
      | some fs1 =>
        cases hu : unlinkF fs1 d with
        | none => simp [execDupStep, ← hb, hc, hu] at h
        | some fs2 => exact ⟨fs1, fs2, rfl, hu⟩

/-- Witness for C2: the step on a concrete filesystem; both the successful
branch and the conclusions are evaluated. -/
theorem claim_C2_witness :
    fileAt (execDupStep (str "tmp/bk") (⟨[(str "home/d.txt", str "DD")],
      [str "home", str "tmp/bk"]⟩, [], 4) (str "home/d.txt")).1
      (joinP (str "tmp/bk") (backupName (str "home/d.txt") 4)) = some (str "DD") :=
  (claim_C2 (str "tmp/bk") ⟨[(str "home/d.txt", str "DD")], [str "home", str "tmp/bk"]⟩
    [] 4 (str "home/d.txt")).2.1 (str "DD") (by decide) (by decide) (by decide)

/-- Claim C8: in plan building, `needsRename` is true exactly when the entry
is neither a directory nor a shortcut and its base name matches the closed
messy-name pattern list (`isMessyFileName`); IMG_20231215_143022.jpg is
messy, 年度报告.docx is not, and a base name shorter than 4 characters never
matches. -/
theorem claim_C8 :
    (∀ (files : List InFile) (user : Str) (today : JDate) (i : Nat)
        (r : AnalyzeResult) (f : InFile),
      (analyzeFiles files user today).1.get? i = some r → files.get? i = some f →
      r.needsRename = (!f.isDirectory && !(isShortcutOrLink f.name || f.isSymlink) &&
        isMessyFileName f.name)) ∧
    isMessyFileName (str "IMG_20231215_143022.jpg") = true ∧
    isMessyFileName (str "年度报告.docx") = false ∧
    (∀ name : Str, (basenameExtP name (extnameP name)).length < 4 →
      isMessyFileName name = false) := by
  refine ⟨?_, by decide, by decide, ?_⟩
  · intro files user today i r f h1 h2
    simp only [analyzeFiles, List.map_map] at h1
    rw [List.get?_eq_getElem?, List.getElem?_map, ← List.get?_eq_getElem?, h2] at h1
    cases h1
    rfl
  · intro name h
    simp only [isMessyFileName, if_pos h]

/-- Witness for C8: the general `needsRename` formula applied at a concrete
one-file plan, and the length-floor fact at a concrete short name. -/
theorem claim_C8_witness :
    (⟨str "p", str "文档", str "年度报告.docx", false, false, false⟩ :
        AnalyzeResult).needsRename =
      (!(false : Bool) &&
        !(isShortcutOrLink (str "年度报告.docx") || (false : Bool)) &&
        isMessyFileName (str "年度报告.docx")) ∧
    isMessyFileName (str "abc") = false :=
  ⟨claim_C8.1 [⟨str "年度报告.docx", str "p", str ".docx", 5, false, false, none⟩]
      (str "u") ⟨2026, 9, 12⟩ 0 _ _ (by decide) rfl,
   claim_C8.2.2.2 (str "abc") (by decide)⟩

/-!
### Decimal rendering lemmas
-/

theorem natToStrGo_eq (fuel n : Nat) (h : n ≤ fuel) :
    natToStrGo fuel n = ((Nat.digits 10 n).map decChar).reverse := by
  induction fuel generalizing n with
  | zero =>
    interval_cases n
    simp [natToStrGo]
  | succ fuel ih =>
    by_cases hn : n = 0
    · simp [natToStrGo, hn]
    · have hlt := Nat.div_lt_self (Nat.pos_of_ne_zero hn) (by norm_num : 1 < 10)
      rw [natToStrGo, if_neg hn, ih _ (by omega),
        Nat.digits_def' (by norm_num : (1:ℕ) < 10) (Nat.pos_of_ne_zero hn)]
      simp

theorem natToStr_eq (n : Nat) :
    natToStr n = if n = 0 then ['0'] else ((Nat.digits 10 n).map decChar).reverse := by
  by_cases hn : n = 0 <;> simp [natToStr, hn, natToStrGo_eq n n le_rfl]

theorem decChar_inj : ∀ d1 < 10, ∀ d2 < 10, decChar d1 = decChar d2 → d1 = d2 := by decide

theorem decChar_isDigit : ∀ d < 10, (decChar d).isDigit = true := by decide

theorem natToStr_all_digit (n : Nat) : ∀ c ∈ natToStr n, c.isDigit = true := by
  rw [natToStr_eq]
  by_cases hn : n = 0
  · rw [if_pos hn]
    intro c hc
    rw [List.mem_singleton] at hc
    subst hc
    decide
  · rw [if_neg hn]
    intro c hc
    rw [List.mem_reverse] at hc
    obtain ⟨d, hd, rfl⟩ := List.mem_map.mp hc
    exact decChar_isDigit d (Nat.digits_lt_base (by norm_num) hd)

theorem map_decChar_inj : ∀ l1 l2 : List Nat, (∀ d ∈ l1, d < 10) → (∀ d ∈ l2, d < 10) →
    l1.map decChar = l2.map decChar → l1 = l2 := by
  intro l1
  induction l1 with
  | nil =>
    intro l2 _ _ h
    cases l2 with
    | nil => rfl
    | cons b u => simp at h
  | cons a t ih =>
    intro l2 h1 h2 h
    cases l2 with
    | nil => simp at h
    | cons b u =>
      simp only [List.map_cons, List.cons.injEq] at h
      have hab : a = b :=
        decChar_inj a (h1 a (List.mem_cons_self a t)) b (h2 b (List.mem_cons_self b u)) h.1
      have htu : t = u := ih u (fun d hd => h1 d (List.mem_cons_of_mem a hd))
        (fun d hd => h2 d (List.mem_cons_of_mem b hd)) h.2
      rw [hab, htu]

theorem natToStr_inj (m n : Nat) (h : natToStr m = natToStr n) : m = n := by
  rw [natToStr_eq, natToStr_eq] at h
  by_cases hm : m = 0 <;> by_cases hn : n = 0
  · omega
  · exfalso
    rw [if_pos hm, if_neg hn] at h
    have hl := congrArg List.length h
    simp only [List.length_singleton, List.length_reverse, List.length_map] at hl
    obtain ⟨d, hd⟩ := List.length_eq_one.mp hl.symm
    rw [hd] at h
    simp only [List.map_cons, List.map_nil, List.reverse_singleton, List.cons.injEq] at h
    have hd10 : d < 10 :=
      Nat.digits_lt_base (by norm_num) (hd ▸ List.mem_singleton.mpr rfl)
    have hd0 : (0 : Nat) = d := decChar_inj 0 (by norm_num) d hd10 h.1
    have := Nat.ofDigits_digits 10 n
    rw [hd, ← hd0] at this
    simp [Nat.ofDigits] at this
    exact hn this.symm
  · exfalso
    rw [if_neg hm, if_pos hn] at h
    have hl := congrArg List.length h
    simp only [List.length_singleton, List.length_reverse, List.length_map] at hl
    obtain ⟨d, hd⟩ := List.length_eq_one.mp hl
    rw [hd] at h
    simp only [List.map_cons, List.map_nil, List.reverse_singleton, List.cons.injEq] at h
    have hd10 : d < 10 :=
      Nat.digits_lt_base (by norm_num) (hd ▸ List.mem_singleton.mpr rfl)
    have hd0 : d = 0 := decChar_inj d hd10 0 (by norm_num) h.1
    have := Nat.ofDigits_digits 10 m
    rw [hd, hd0] at this
    simp [Nat.ofDigits] at this
    exact hm this.symm
  · rw [if_neg hm, if_neg hn] at h
    have h2 := List.reverse_injective h
    have h3 := map_decChar_inj _ _
      (fun d hd => Nat.digits_lt_base (by norm_num) hd)
      (fun d hd => Nat.digits_lt_base (by norm_num) hd) h2
    exact Nat.digits_inj_iff.mp h3

/-!
### Conflict-resolution freshness (claim C3)
-/

theorem natToStr_append_inj (k k' : Nat) (ext : Str)
    (h : natToStr k ++ ext = natToStr k' ++ ext) : k = k' := by
  have hl := congrArg List.length h
  simp only [List.length_append] at hl
  exact natToStr_inj k k' (List.append_inj h (by omega)).1

theorem candidate_inj (target : Str) (k k' : Nat)
    (h : candidate target k = candidate target k') : k = k' := by
  simp only [candidate, joinP, List.append_assoc, List.append_cancel_left_eq,
    List.cons_append, List.cons.injEq, true_and] at h
  exact natToStr_append_inj k k' (extnameP target) h

theorem existsP_mem (fs : FS) (p : Str) (h : existsP fs p = true) :
    p ∈ fs.files.map Prod.fst ++ fs.dirs := by
  simp only [existsP, Bool.or_eq_true] at h
  rcases h with h | h
  · exact List.mem_append_left _ (lookupF_isSome_mem fs.files p h)
  · simp only [isDirAt, List.any_eq_true] at h
    obtain ⟨d, hd, hdp⟩ := h
    rw [beq_iff_eq] at hdp
    exact List.mem_append_right _ (hdp ▸ hd)

theorem resolveGo_free (fs : FS) (target : Str) :
    ∀ fuel k, (∃ j, j < fuel ∧ existsP fs (candidate target (k + j)) = false) →
      existsP fs (resolveGo fs target fuel k) = false := by
  intro fuel
  induction fuel with
  | zero =>
    rintro k ⟨j, hj, _⟩
    omega
  | succ fuel ih =>
    rintro k ⟨j, hj, hfree⟩
    rw [resolveGo]
    by_cases hex : existsP fs (candidate target k) = true
    · rw [if_pos hex]
      apply ih
      cases j with
      | zero =>
        rw [Nat.add_zero] at hfree
        rw [hfree] at hex
        cases hex
      | succ j =>
        exact ⟨j, by omega, by rw [show k + 1 + j = k + (j + 1) by omega]; exact hfree⟩
    · rw [if_neg hex]
      exact Bool.eq_false_iff.mpr hex

theorem resolveConflict_fresh (fs : FS) (target : Str) :
    existsP fs (resolveConflict fs target) = false := by
  rw [resolveConflict]
  by_cases h : existsP fs target = true
  · rw [if_pos h]
    apply resolveGo_free
    by_contra hall
    push_neg at hall
    have hsub : ((List.range (fs.files.length + fs.dirs.length + 1)).map
        (fun j => candidate target (1 + j))) ⊆ fs.files.map Prod.fst ++ fs.dirs := by
      intro x hx
      obtain ⟨j, hj, rfl⟩ := List.mem_map.mp hx
      have hjr := List.mem_range.mp hj
      exact existsP_mem fs _ (bool_ne_false _ (hall j hjr))
    have hinj : Function.Injective (fun j => candidate target (1 + j)) := by
      intro a b hab
      have := candidate_inj target (1 + a) (1 + b) hab
      omega
    have hlen := (List.subperm_of_subset ((List.nodup_range _).map hinj) hsub).length_le
    simp only [List.length_map, List.length_range, List.length_append] at hlen
    omega
  · rw [if_neg h]
    exact Bool.eq_false_iff.mpr h

/-- In the move/rename loop body, a recorded operation's destination did not
exist before the step: nothing is ever silently overwritten. -/
theorem execFileStep_no_overwrite (folder : Str) (fs : FS) (ops : List Op) (f : PlanFile)
    (op : Op) (h : (execFileStep folder (fs, ops) f).2 = ops ++ [op]) :
    ∃ dp, op.dst = some dp ∧ existsP fs dp = false := by
  simp only [execFileStep] at h
  by_cases ht : (targetOf folder f == f.path) = true
  · rw [if_pos ht] at h
    exact absurd (congrArg List.length h) (by simp)
  · rw [if_neg ht] at h
    cases hr : renameF fs f.path (resolveConflict fs (targetOf folder f)) with
    | none =>
      rw [hr] at h
      exact absurd (congrArg List.length h) (by simp)
    | some fs2 =>
      rw [hr] at h
      have := List.append_cancel_left h
      simp only [List.cons.injEq, and_true] at this
      refine ⟨resolveConflict fs (targetOf folder f), ?_, resolveConflict_fresh fs _⟩
      rw [← this]

/-- Claim C3: conflict resolution returns the target itself when it is
unused, and otherwise the first free `_k`-suffixed variant, so a resolved
destination never exists beforehand (no silent overwrite, and every recorded
move/rename's destination was fresh); concretely, executing a plan in which
two files resolve to the same target `n.txt` leaves one file at `n.txt` and
the other at `n_1.txt`, with both contents preserved. -/
theorem claim_C3 :
    (∀ (fs : FS) (target : Str), existsP fs (resolveConflict fs target) = false) ∧
    (∀ (fs : FS) (target : Str), existsP fs target = false →
      resolveConflict fs target = target) ∧
    (∀ (folder : Str) (fs : FS) (ops : List Op) (f : PlanFile) (op : Op),
      (execFileStep folder (fs, ops) f).2 = ops ++ [op] →
      ∃ dp, op.dst = some dp ∧ existsP fs dp = false) ∧
    (fileAt (executeOrganize (str "tmp") 3
        ⟨⟨[(str "home/u/a.txt", str "A"), (str "home/u/b.txt", str "B")],
          [str "home", str "home/u", str "tmp"]⟩, []⟩
        ⟨str "home/u", [str "文档"],
         [⟨str "home/u/a.txt", str "文档", str "n.txt", true, true⟩,
          ⟨str "home/u/b.txt", str "文档", str "n.txt", true, true⟩], []⟩).1.fs
        (str "home/u/文档/n.txt") = some (str "A") ∧
     fileAt (executeOrganize (str "tmp") 3
        ⟨⟨[(str "home/u/a.txt", str "A"), (str "home/u/b.txt", str "B")],
          [str "home", str "home/u", str "tmp"]⟩, []⟩
        ⟨str "home/u", [str "文档"],
         [⟨str "home/u/a.txt", str "文档", str "n.txt", true, true⟩,
          ⟨str "home/u/b.txt", str "文档", str "n.txt", true, true⟩], []⟩).1.fs
        (str "home/u/文档/n_1.txt") = some (str "B")) := by
  refine ⟨resolveConflict_fresh, ?_, execFileStep_no_overwrite, by decide, by decide⟩
  intro fs target h
  rw [resolveConflict, if_neg (by rw [h]; exact Bool.false_ne_true)]

/-- Witness for C3: the parts with hypotheses applied at concrete inputs. -/
theorem claim_C3_witness :
    resolveConflict ⟨[], [str "d"]⟩ (str "x.txt") = str "x.txt" ∧
    ∃ dp, (⟨OpType.rename, str "a", some (str "./b"), none⟩ : Op).dst = some dp ∧
      existsP (⟨[(str "a", str "A")], []⟩ : FS) dp = false := by
  constructor
  · exact claim_C3.2.1 ⟨[], [str "d"]⟩ (str "x.txt") (by decide)
  · exact claim_C3.2.2.1 (str "f") ⟨[(str "a", str "A")], []⟩ []
      ⟨str "a", str "c", str "b", false, true⟩
      ⟨OpType.rename, str "a", some (str "./b"), none⟩ (by decide)

/-!
### Date-token lemmas (claim C9)
-/

theorem natToStr_len_eq (k n : Nat) (h1 : 10 ^ k ≤ n) (h2 : n < 10 ^ (k + 1)) :
    (natToStr n).length = k + 1 := by
  have hn : n ≠ 0 := by
    have := Nat.one_le_iff_ne_zero.mp (le_trans (Nat.one_le_pow k 10 (by norm_num)) h1)
    exact this
  rw [natToStr_eq, if_neg hn]
  simp only [List.length_reverse, List.length_map]
  rw [Nat.digits_len 10 n (by norm_num) hn,
    Nat.log_eq_of_pow_le_of_lt_pow h1 h2]

theorem natToStr_len_lt10 (n : Nat) (h : n < 10) : (natToStr n).length = 1 := by
  by_cases hn : n = 0
  · rw [hn]; rfl
  · exact natToStr_len_eq 0 n (Nat.one_le_iff_ne_zero.mpr hn) (by simpa using h)

theorem pad2_spec (n : Nat) (h : n < 100) :
    (pad2 n).length = 2 ∧ ∀ c ∈ pad2 n, c.isDigit = true := by
  unfold pad2
  by_cases h10 : n < 10
  · rw [if_pos h10]
    refine ⟨by simp [natToStr_len_lt10 n h10], ?_⟩
    intro c hc
    rcases List.mem_cons.mp hc with rfl | hc
    · decide
    · exact natToStr_all_digit n c hc
  · rw [if_neg h10]
    exact ⟨natToStr_len_eq 1 n (by omega) (by simpa using h), natToStr_all_digit n⟩

theorem renderDate_spec (d : JDate) (hy1 : 1000 ≤ d.year) (hy2 : d.year < 10000)
    (hm : d.month0 < 99) (hd : d.day < 100) :
    (renderDate d).length = 8 ∧ ∀ c ∈ renderDate d, c.isDigit = true := by
  have hylen : (natToStr d.year).length = 4 :=
    natToStr_len_eq 3 d.year (by omega) (by norm_num; omega)
  have hmo := pad2_spec (d.month0 + 1) (by omega)
  have hda := pad2_spec d.day hd
  constructor
  · simp [renderDate, List.length_append, hylen, hmo.1, hda.1]
  · intro c hc
    simp only [renderDate, List.append_assoc, List.mem_append] at hc
    rcases hc with hc | hc | hc
    · exact natToStr_all_digit d.year c hc
    · exact hmo.2 c hc
    · exact hda.2 c hc

theorem takeDigits_spec : ∀ (n : Nat) (s : Str) (pr : Str × Str),
    takeDigits n s = some pr → pr.1.length = n ∧ ∀ c ∈ pr.1, c.isDigit = true := by
  intro n
  induction n with
  | zero =>
    intro s pr h
    simp only [takeDigits, Option.some.injEq] at h
    rw [← h]
    exact ⟨rfl, by intro c hc; simp at hc⟩
  | succ n ih =>
    intro s pr h
    cases s with
    | nil => simp [takeDigits] at h
    | cons c t =>
      simp only [takeDigits] at h
      by_cases hd : c.isDigit = true
      · rw [if_pos hd] at h
        cases hq : takeDigits n t with
        | none => rw [hq] at h; simp at h
        | some pr2 =>
          rw [hq] at h
          simp only [Option.map_some', Option.some.injEq] at h
          obtain ⟨hlen, hdig⟩ := ih t pr2 hq
          rw [← h]
          refine ⟨by simp [hlen], ?_⟩
          intro x hx
          rcases List.mem_cons.mp hx with rfl | hx
          · exact hd
          · exact hdig x hx
      · rw [if_neg hd] at h
        cases h

theorem matchD1At_spec (s : Str) (tok : Str) (h : matchD1At s = some tok) :
    tok.length = 8 ∧ ∀ c ∈ tok, c.isDigit = true := by
  simp only [matchD1At] at h
  cases h4 : takeDigits 4 s with
  | none => rw [h4] at h; cases h
  | some y =>
    rw [h4] at h
    simp only [Option.some_bind] at h
    cases h2 : takeDigits 2 (skipSep y.2) with
    | none => rw [h2] at h; cases h
    | some mo =>
      rw [h2] at h
      simp only [Option.some_bind] at h
      cases h2' : takeDigits 2 (skipSep mo.2) with
      | none => rw [h2'] at h; cases h
      | some d =>
        rw [h2'] at h
        simp only [Option.map_some', Option.some.injEq] at h
        obtain ⟨l4, d4⟩ := takeDigits_spec 4 s y h4
        obtain ⟨l2, d2⟩ := takeDigits_spec 2 _ mo h2
        obtain ⟨l2', d2'⟩ := takeDigits_spec 2 _ d h2'
        rw [← h]
        constructor
        · simp [List.length_append, l4, l2, l2']
        · intro c hc
          simp only [List.append_assoc, List.mem_append] at hc
          rcases hc with hc | hc | hc
          · exact d4 c hc
          · exact d2 c hc
          · exact d2' c hc

theorem matchD2At_spec (s : Str) (tok : Str) (h : matchD2At s = some tok) :
    tok.length = 8 ∧ ∀ c ∈ tok, c.isDigit = true := by
  simp only [matchD2At] at h
  cases h2 : takeDigits 2 s with
  | none => rw [h2] at h; cases h
  | some mo =>
    rw [h2] at h
    simp only [Option.some_bind] at h
    cases hsep : reqSep mo.2 with
    | none => rw [hsep] at h; cases h
    | some t1 =>
      rw [hsep] at h
      simp only [Option.some_bind] at h
      cases h2' : takeDigits 2 t1 with
      | none => rw [h2'] at h; cases h
      | some d =>
        rw [h2'] at h
        simp only [Option.some_bind] at h
        cases hsep2 : reqSep d.2 with
        | none => rw [hsep2] at h; cases h
        | some t2 =>
          rw [hsep2] at h
          simp only [Option.some_bind] at h
          cases h4 : takeDigits 4 t2 with
          | none => rw [h4] at h; cases h
          | some y =>
            rw [h4] at h
            simp only [Option.map_some', Option.some.injEq] at h
            obtain ⟨l2, d2⟩ := takeDigits_spec 2 s mo h2
            obtain ⟨l2', d2'⟩ := takeDigits_spec 2 _ d h2'
            obtain ⟨l4, d4⟩ := takeDigits_spec 4 _ y h4
            rw [← h]
            constructor
            · simp [List.length_append, l4, l2, l2']
            · intro c hc
              simp only [List.append_assoc, List.mem_append] at hc
              rcases hc with hc | hc | hc
              · exact d4 c hc
              · exact d2 c hc
              · exact d2' c hc

theorem searchM_ex (m : Str → Option Str) :
    ∀ (s : Str) (tok : Str), searchM m s = some tok → ∃ s2, m s2 = some tok := by
  intro s
  induction s with
  | nil =>
    intro tok h
    exact ⟨[], h⟩
  | cons c t ih =>
    intro tok h
    rw [searchM] at h
    cases hm : m (c :: t) with
    | some tok2 => rw [hm] at h; exact ⟨c :: t, hm.trans h⟩
    | none => rw [hm] at h; exact ih tok h

/-- Claim C9: the date token for a messy-named file is obtained by first
searching the base name for a year-first date-like substring, else a
day-month-year one; if neither occurs, the file's modification date is used,
and failing that the current date — and (for calendar dates with 4-digit
years) the resulting token is always exactly 8 digits. -/
theorem claim_C9 (fileName : Str) (mt : Option JDate) (today : JDate)
    (hmt : ∀ d, mt = some d →
      1000 ≤ d.year ∧ d.year < 10000 ∧ d.month0 < 99 ∧ d.day < 100)
    (htoday : 1000 ≤ today.year ∧ today.year < 10000 ∧
      today.month0 < 99 ∧ today.day < 100) :
    ((extractDateFromFile fileName mt today).length = 8 ∧
     ∀ c ∈ extractDateFromFile fileName mt today, c.isDigit = true) ∧
    (∀ tok, searchM matchD1At (basenameExtP fileName (extnameP fileName)) = some tok →
      extractDateFromFile fileName mt today = tok) ∧
    (searchM matchD1At (basenameExtP fileName (extnameP fileName)) = none →
      ∀ tok, searchM matchD2At (basenameExtP fileName (extnameP fileName)) = some tok →
      extractDateFromFile fileName mt today = tok) ∧
    (searchM matchD1At (basenameExtP fileName (extnameP fileName)) = none →
      searchM matchD2At (basenameExtP fileName (extnameP fileName)) = none →
      (∀ d, mt = some d → extractDateFromFile fileName mt today = renderDate d) ∧
      (mt = none → extractDateFromFile fileName mt today = renderDate today)) := by
  refine ⟨?_, ?_, ?_, ?_⟩
  · cases h1 : searchM matchD1At (basenameExtP fileName (extnameP fileName)) with
    | some tok =>
      have hval : extractDateFromFile fileName mt today = tok := by
        simp only [extractDateFromFile, h1]
      obtain ⟨s2, hs2⟩ := searchM_ex matchD1At _ tok h1
      rw [hval]
      exact matchD1At_spec s2 tok hs2
    | none =>
      cases h2 : searchM matchD2At (basenameExtP fileName (extnameP fileName)) with
      | some tok =>
        have hval : extractDateFromFile fileName mt today = tok := by
          simp only [extractDateFromFile, h1, h2]
        obtain ⟨s2, hs2⟩ := searchM_ex matchD2At _ tok h2
        rw [hval]
        exact matchD2At_spec s2 tok hs2
      | none =>
        cases hm : mt with
        | some d =>
          have hval : extractDateFromFile fileName (some d) today = renderDate d := by
            simp only [extractDateFromFile, h1, h2]
          obtain ⟨a, b, c, e⟩ := hmt d hm
          rw [hval]
          exact renderDate_spec d a b c e
        | none =>
          have hval : extractDateFromFile fileName none today = renderDate today := by
            simp only [extractDateFromFile, h1, h2]
          obtain ⟨a, b, c, e⟩ := htoday
          rw [hval]
          exact renderDate_spec today a b c e
  · intro tok h1
    simp only [extractDateFromFile, h1]
  · intro h1 tok h2
    simp only [extractDateFromFile, h1, h2]
  · intro h1 h2
    constructor
    · intro d hm
      simp only [extractDateFromFile, h1, h2, hm]
    · intro hm
      simp only [extractDateFromFile, h1, h2, hm]

/-- Witness for C9: all three sources of the token at concrete inputs — a
name-extracted token, a modification-date token and a current-date token. -/
theorem claim_C9_witness :
    extractDateFromFile (str "IMG_20231215_143022.jpg") none ⟨2026, 9, 12⟩ =
      str "20231215" ∧
    (extractDateFromFile (str "report.pdf") (some ⟨2024, 0, 5⟩) ⟨2026, 9, 12⟩).length = 8 ∧
    extractDateFromFile (str "report.pdf") none ⟨2026, 9, 12⟩ = renderDate ⟨2026, 9, 12⟩ := by
  refine ⟨?_, ?_, ?_⟩
  · exact (claim_C9 (str "IMG_20231215_143022.jpg") none ⟨2026, 9, 12⟩
      (by intro d h; cases h) (by refine ⟨?_, ?_, ?_, ?_⟩ <;> norm_num)).2.1
      (str "20231215") (by decide)
  · exact ((claim_C9 (str "report.pdf") (some ⟨2024, 0, 5⟩) ⟨2026, 9, 12⟩
      (by intro d h; cases h; refine ⟨?_, ?_, ?_, ?_⟩ <;> norm_num)
      (by refine ⟨?_, ?_, ?_, ?_⟩ <;> norm_num)).1).1
  · exact ((claim_C9 (str "report.pdf") none ⟨2026, 9, 12⟩
      (by intro d h; cases h) (by refine ⟨?_, ?_, ?_, ?_⟩ <;> norm_num)).2.2.2
      (by decide) (by decide)).2 rfl

/-!
### Category tally lemmas (claim C5)
-/

/-- `categoryCount[cat] || 0` on the association list. -/
def lookupN : List (Str × Nat) → Str → Nat
  | [], _ => 0
  | (k, n) :: t, q => if k = q then n else lookupN t q

/-- The number of non-directory entries classified into `cat` — the
quantity the spec's move-worthiness threshold speaks about. -/
def countCat (files : List InFile) (cat : Str) : Nat :=
  (files.filter (fun f =>
    !f.isDirectory && (classifyFile f.name f.isDirectory f.isSymlink == cat))).length

theorem lookupN_bump (m : List (Str × Nat)) (k q : Str) :
    lookupN (bump m k) q = if q = k then lookupN m q + 1 else lookupN m q := by
  induction m with
  | nil =>
    by_cases h : q = k
    · rw [if_pos h, h]; simp [bump, lookupN]
    · rw [if_neg h]
      simp only [bump, lookupN, if_neg (fun h2 : k = q => h h2.symm)]
  | cons a t ih =>
    obtain ⟨c, n⟩ := a
    simp only [bump]
    by_cases hc : c = k
    · rw [if_pos hc]
      by_cases hq : q = k
      · rw [if_pos hq]
        simp [lookupN, hc.trans hq.symm]
      · rw [if_neg hq]
        have hcq : ¬ c = q := fun h2 => hq (h2.symm.trans hc)
        simp [lookupN, hcq]
    · rw [if_neg hc]
      by_cases hcq : c = q
      · have hqk : ¬ q = k := fun h2 => hc (hcq.trans h2)
        simp [lookupN, hcq, hqk]
      · simp [lookupN, hcq, ih]

/-- Keys in a tally are pairwise distinct. -/
def KeysOK (m : List (Str × Nat)) : Prop := m.Pairwise (fun a b => a.1 ≠ b.1)

theorem mem_bump (m : List (Str × Nat)) (k : Str) (a : Str × Nat) (h : a ∈ bump m k) :
    a.1 = k ∨ a ∈ m := by
  induction m with
  | nil =>
    simp only [bump, List.mem_singleton] at h
    left
    rw [h]
  | cons b t ih =>
    obtain ⟨c, n⟩ := b
    simp only [bump] at h
    by_cases hc : c = k
    · rw [if_pos hc] at h
      rcases List.mem_cons.mp h with rfl | h
      · exact Or.inl hc
      · exact Or.inr (List.mem_cons_of_mem _ h)
    · rw [if_neg hc] at h
      rcases List.mem_cons.mp h with rfl | h
      · exact Or.inr (List.mem_cons_self _ _)
      · rcases ih h with h2 | h2
        · exact Or.inl h2
        · exact Or.inr (List.mem_cons_of_mem _ h2)

theorem bump_keysOK (m : List (Str × Nat)) (k : Str) (h : KeysOK m) : KeysOK (bump m k) := by
  induction m with
  | nil => simp [bump, KeysOK]
  | cons b t ih =>
    obtain ⟨c, n⟩ := b
    rw [KeysOK, List.pairwise_cons] at h
    simp only [bump]
    by_cases hc : c = k
    · rw [if_pos hc]
      rw [KeysOK, List.pairwise_cons]
      exact h
    · rw [if_neg hc]
      rw [KeysOK, List.pairwise_cons]
      refine ⟨?_, ih h.2⟩
      intro a ha
      rcases mem_bump t k a ha with h2 | h2
      · rw [h2]; exact fun h3 => hc h3
      · exact h.1 a h2

theorem lookupN_mem (m : List (Str × Nat)) (c : Str) (n : Nat)
    (hok : KeysOK m) (h : (c, n) ∈ m) : lookupN m c = n := by
  induction m with
  | nil => cases h
  | cons b t ih =>
    obtain ⟨k, w⟩ := b
    rw [KeysOK, List.pairwise_cons] at hok
    rcases List.mem_cons.mp h with h2 | h2
    · cases h2
      simp [lookupN]
    · have hkc : ¬ k = c := fun h3 => (h3 ▸ hok.1 (c, n) h2) rfl
      simp only [lookupN, if_neg hkc]
      exact ih hok.2 h2

theorem mem_of_lookupN (m : List (Str × Nat)) (c : Str) (h : lookupN m c ≠ 0) :
    (c, lookupN m c) ∈ m := by
  induction m with
  | nil => simp [lookupN] at h
  | cons b t ih =>
    obtain ⟨k, w⟩ := b
    by_cases hk : k = c
    · subst hk
      simp [lookupN]
    · rw [lookupN, if_neg hk] at h ⊢
      exact List.mem_cons_of_mem _ (ih h)

theorem tally_foldl (files : List InFile) (cat : Str) : ∀ m : List (Str × Nat),
    lookupN (((files.map (fun f =>
        (f, classifyFile f.name f.isDirectory f.isSymlink))).filter
      (fun fc => !fc.1.isDirectory)).foldl (fun m fc => bump m fc.2) m) cat =
    lookupN m cat + countCat files cat := by
  induction files with
  | nil => intro m; simp [countCat, lookupN]
  | cons f t ih =>
    intro m
    simp only [List.map_cons, List.filter_cons]
    by_cases hd : f.isDirectory
    · rw [if_neg (by simp [hd])]
      rw [ih m]
      have : countCat (f :: t) cat = countCat t cat := by
        simp [countCat, List.filter_cons, hd]
      rw [this]
    · rw [if_pos (by simp [hd])]
      simp only [List.foldl_cons]
      rw [ih (bump m (classifyFile f.name f.isDirectory f.isSymlink))]
      rw [lookupN_bump]
      by_cases hc : cat = classifyFile f.name f.isDirectory f.isSymlink
      · rw [if_pos hc]
        have hp : (!f.isDirectory &&
            (classifyFile f.name f.isDirectory f.isSymlink == cat)) = true := by
          rw [Bool.and_eq_true]
          exact ⟨by simp [hd], beq_iff_eq.mpr hc.symm⟩
        have hcc : countCat (f :: t) cat = countCat t cat + 1 := by
          simp [countCat, List.filter_cons, hp]
        rw [hcc]
        omega
      · rw [if_neg hc]
        have hp : (!f.isDirectory &&
            (classifyFile f.name f.isDirectory f.isSymlink == cat)) = false := by
          have h2 : (classifyFile f.name f.isDirectory f.isSymlink == cat) = false :=
            beq_eq_false_iff_ne.mpr (fun h2 => hc h2.symm)
          simp [h2]
        have hcc : countCat (f :: t) cat = countCat t cat := by
          simp [countCat, List.filter_cons, hp]
        rw [hcc]

theorem tally_keysOK (files : List InFile) : ∀ m : List (Str × Nat), KeysOK m →
    KeysOK (((files.map (fun f =>
        (f, classifyFile f.name f.isDirectory f.isSymlink))).filter
      (fun fc => !fc.1.isDirectory)).foldl (fun m fc => bump m fc.2) m) := by
  induction files with
  | nil => intro m hm; exact hm
  | cons f t ih =>
    intro m hm
    simp only [List.map_cons, List.filter_cons]
    by_cases hd : f.isDirectory
    · rw [if_neg (by simp [hd])]
      exact ih m hm
    · rw [if_pos (by simp [hd])]
      simp only [List.foldl_cons]
      exact ih _ (bump_keysOK m _ hm)

/-- Claim C5: a category other than 快捷方式 and 其他 receives a
subdirectory exactly when its non-directory count is at least 3; a file's
`needsMove` is true exactly when it is a non-shortcut, non-directory entry
whose category is in that set; and concretely 2 Image files produce no Image
folder and `needsMove = false` everywhere, while a 3rd Image file flips the
folder decision and all three `needsMove` flags to true. -/
theorem claim_C5 :
    (∀ (files : List InFile) (user : Str) (today : JDate) (cat : Str),
      cat ∈ (analyzeFiles files user today).2 ↔
        (3 ≤ countCat files cat ∧ cat ≠ str "快捷方式" ∧ cat ≠ str "其他")) ∧
    (∀ (files : List InFile) (user : Str) (today : JDate) (i : Nat)
        (r : AnalyzeResult) (f : InFile),
      (analyzeFiles files user today).1.get? i = some r → files.get? i = some f →
      r.needsMove = (!(isShortcutOrLink f.name || f.isSymlink) && !f.isDirectory &&
        (analyzeFiles files user today).2.contains
          (classifyFile f.name f.isDirectory f.isSymlink))) ∧
    ((analyzeFiles
        [⟨str "a1.jpg", str "p1", str ".jpg", 9, false, false, none⟩,
         ⟨str "b2.png", str "p2", str ".png", 9, false, false, none⟩]
        (str "u") ⟨2026, 9, 12⟩).2 = [] ∧
     ((analyzeFiles
        [⟨str "a1.jpg", str "p1", str ".jpg", 9, false, false, none⟩,
         ⟨str "b2.png", str "p2", str ".png", 9, false, false, none⟩]
        (str "u") ⟨2026, 9, 12⟩).1.map (fun r => r.needsMove)) = [false, false]) ∧
    ((analyzeFiles
        [⟨str "a1.jpg", str "p1", str ".jpg", 9, false, false, none⟩,
         ⟨str "b2.png", str "p2", str ".png", 9, false, false, none⟩,
         ⟨str "c3.gif", str "p3", str ".gif", 9, false, false, none⟩]
        (str "u") ⟨2026, 9, 12⟩).2 = [str "图片"] ∧
     ((analyzeFiles
        [⟨str "a1.jpg", str "p1", str ".jpg", 9, false, false, none⟩,
         ⟨str "b2.png", str "p2", str ".png", 9, false, false, none⟩,
         ⟨str "c3.gif", str "p3", str ".gif", 9, false, false, none⟩]
        (str "u") ⟨2026, 9, 12⟩).1.map (fun r => r.needsMove)) = [true, true, true]) := by
  refine ⟨?_, ?_, by decide, by decide⟩
  · intro files user today cat
    simp only [analyzeFiles]
    constructor
    · intro h
      obtain ⟨⟨c, n⟩, hmem, rfl⟩ := List.mem_map.mp h
      have hf := List.mem_filter.mp hmem
      have hok := tally_keysOK files [] (by simp [KeysOK])
      have hv := lookupN_mem _ c n hok hf.1
      have hcount := tally_foldl files c []
      simp only [lookupN] at hcount
      rw [Nat.zero_add] at hcount
      rw [hcount] at hv
      simp only [Bool.and_eq_true, decide_eq_true_eq, Bool.not_eq_true'] at hf
      refine ⟨hv ▸ hf.2.1.1, ?_, ?_⟩
      · have := hf.2.1.2
        rw [beq_eq_false_iff_ne] at this
        exact this
      · have := hf.2.2
        rw [beq_eq_false_iff_ne] at this
        exact this
    · rintro ⟨h3, hne1, hne2⟩
      have hcount := tally_foldl files cat []
      simp only [lookupN] at hcount
      rw [Nat.zero_add] at hcount
      have hne : lookupN (((files.map (fun f =>
          (f, classifyFile f.name f.isDirectory f.isSymlink))).filter
            (fun fc => !fc.1.isDirectory)).foldl (fun m fc => bump m fc.2) []) cat ≠ 0 := by
        rw [hcount]
        omega
      have hmem := mem_of_lookupN _ cat hne
      apply List.mem_map.mpr
      refine ⟨(cat, lookupN (((files.map (fun f =>
        (f, classifyFile f.name f.isDirectory f.isSymlink))).filter
          (fun fc => !fc.1.isDirectory)).foldl (fun m fc => bump m fc.2) []) cat), ?_, rfl⟩
      apply List.mem_filter.mpr
      refine ⟨hmem, ?_⟩
      simp only [Bool.and_eq_true, decide_eq_true_eq, Bool.not_eq_true']
      rw [hcount]
      exact ⟨⟨h3, beq_eq_false_iff_ne.mpr hne1⟩, beq_eq_false_iff_ne.mpr hne2⟩
  · intro files user today i r f h1 h2
    simp only [analyzeFiles, List.map_map] at h1 ⊢
    rw [List.get?_eq_getElem?, List.getElem?_map, ← List.get?_eq_getElem?, h2] at h1
    cases h1
    rfl

/-- Witness for C5: the `needsMove` formula applied at the first file of the
concrete three-Image-file plan. -/
theorem claim_C5_witness :
    (⟨str "p1", str "图片", str "a1.jpg", false, true, false⟩ :
        AnalyzeResult).needsMove =
      (!(isShortcutOrLink (str "a1.jpg") || (false : Bool)) && !(false : Bool) &&
        (analyzeFiles
          [⟨str "a1.jpg", str "p1", str ".jpg", 9, false, false, none⟩,
           ⟨str "b2.png", str "p2", str ".png", 9, false, false, none⟩,
           ⟨str "c3.gif", str "p3", str ".gif", 9, false, false, none⟩]
          (str "u") ⟨2026, 9, 12⟩).2.contains (classifyFile (str "a1.jpg") false false)) :=
  claim_C5.2.1
    [⟨str "a1.jpg", str "p1", str ".jpg", 9, false, false, none⟩,
     ⟨str "b2.png", str "p2", str ".png", 9, false, false, none⟩,
     ⟨str "c3.gif", str "p3", str ".gif", 9, false, false, none⟩]
    (str "u") ⟨2026, 9, 12⟩ 0 _ _ (by decide) rfl

/-!
### Duplicate-detection lemmas (claim C6)
-/

theorem lookupG_addToGroup (m : List (Nat × List DupIn)) (f : DupIn) (q : Nat) :
    lookupG (addToGroup m f) q =
      if q = f.size then lookupG m q ++ [f] else lookupG m q := by
  induction m with
  | nil =>
    by_cases h : q = f.size
    · rw [if_pos h, h]; simp [addToGroup, lookupG]
    · rw [if_neg h]
      simp only [addToGroup, lookupG, if_neg (fun h2 : f.size = q => h h2.symm)]
  | cons a t ih =>
    obtain ⟨s, g⟩ := a
    simp only [addToGroup]
    by_cases hs : s = f.size
    · rw [if_pos hs]
      by_cases hq : q = f.size
      · rw [if_pos hq]
        simp [lookupG, hs.trans hq.symm]
      · rw [if_neg hq]
        have hne : ¬ s = q := fun h2 => hq (h2.symm.trans hs)
        simp only [lookupG, if_neg hne]
    · rw [if_neg hs]
      by_cases hsq : s = q
      · simp only [lookupG, if_pos hsq,
          if_neg (fun h2 : q = f.size => hs (hsq.trans h2))]
      · simp [lookupG, hsq, ih]

theorem lookupH_addToHash (m : List (Str × List DupIn)) (h0 : Str) (f : DupIn) (q : Str) :
    lookupH (addToHash m h0 f) q =
      if q = h0 then lookupH m q ++ [f] else lookupH m q := by
  induction m with
  | nil =>
    by_cases h : q = h0
    · rw [if_pos h, h]; simp [addToHash, lookupH]
    · rw [if_neg h]
      simp only [addToHash, lookupH, if_neg (fun h2 : h0 = q => h h2.symm)]
  | cons a t ih =>
    obtain ⟨k, g⟩ := a
    simp only [addToHash]
    by_cases hk : k = h0
    · rw [if_pos hk]
      by_cases hq : q = h0
      · rw [if_pos hq]
        simp [lookupH, hk.trans hq.symm]
      · rw [if_neg hq]
        have hne : ¬ k = q := fun h2 => hq (h2.symm.trans hk)
        simp only [lookupH, if_neg hne]
    · rw [if_neg hk]
      by_cases hkq : k = q
      · simp only [lookupH, if_pos hkq,
          if_neg (fun h2 : q = h0 => hk (hkq.trans h2))]
      · simp [lookupH, hkq, ih]

theorem lookupG_fold (l : List DupIn) : ∀ (m : List (Nat × List DupIn)) (q : Nat),
    lookupG (l.foldl addToGroup m) q = lookupG m q ++ l.filter (fun f => f.size == q) := by
  induction l with
  | nil => intro m q; simp
  | cons f t ih =>
    intro m q
    simp only [List.foldl_cons, List.filter_cons]
    rw [ih, lookupG_addToGroup]
    by_cases h : q = f.size
    · rw [if_pos h, if_pos (by simp [h] : (f.size == q) = true)]
      simp
    · rw [if_neg h, if_neg (fun hb => h ((beq_iff_eq.mp hb).symm))]

theorem lookupH_hashfold (hash : Str → Option Str) (l : List DupIn) :
    ∀ (m : List (Str × List DupIn)) (q : Str),
    lookupH (l.foldl (hashStep hash) m) q =
      lookupH m q ++ l.filter (fun f => hash f.path == some q) := by
  induction l with
  | nil => intro m q; simp
  | cons f t ih =>
    intro m q
    simp only [List.foldl_cons, List.filter_cons]
    cases hh : hash f.path with
    | none =>
      rw [show hashStep hash m f = m by simp [hashStep, hh],
        if_neg (by simp : ¬ (((none : Option Str) == some q) = true))]
      exact ih m q
    | some h2 =>
      rw [show hashStep hash m f = addToHash m h2 f by simp [hashStep, hh],
        ih, lookupH_addToHash]
      by_cases hq : q = h2
      · rw [if_pos hq, if_pos (by simp [hq] : ((some h2 == some q) = true))]
        simp
      · rw [if_neg hq,
          if_neg (fun hb => hq ((Option.some.inj (beq_iff_eq.mp hb)).symm))]

/-- Key-distinctness for size groups. -/
def KeysOKG (m : List (Nat × List DupIn)) : Prop := m.Pairwise (fun a b => a.1 ≠ b.1)

/-- Key-distinctness for hash buckets. -/
def KeysOKH (m : List (Str × List DupIn)) : Prop := m.Pairwise (fun a b => a.1 ≠ b.1)

theorem mem_addToGroup (m : List (Nat × List DupIn)) (f : DupIn) (a : Nat × List DupIn)
    (h : a ∈ addToGroup m f) : a.1 = f.size ∨ a ∈ m := by
  induction m with
  | nil =>
    simp only [addToGroup, List.mem_singleton] at h
    left
    rw [h]
  | cons b t ih =>
    obtain ⟨s, g⟩ := b
    simp only [addToGroup] at h
    by_cases hs : s = f.size
    · rw [if_pos hs] at h
      rcases List.mem_cons.mp h with rfl | h
      · exact Or.inl hs
      · exact Or.inr (List.mem_cons_of_mem _ h)
    · rw [if_neg hs] at h
      rcases List.mem_cons.mp h with rfl | h
      · exact Or.inr (List.mem_cons_self _ _)
      · rcases ih h with h2 | h2
        · exact Or.inl h2
        · exact Or.inr (List.mem_cons_of_mem _ h2)

theorem mem_addToHash (m : List (Str × List DupIn)) (h0 : Str) (f : DupIn)
    (a : Str × List DupIn) (h : a ∈ addToHash m h0 f) : a.1 = h0 ∨ a ∈ m := by
  induction m with
  | nil =>
    simp only [addToHash, List.mem_singleton] at h
    left
    rw [h]
  | cons b t ih =>
    obtain ⟨k, g⟩ := b
    simp only [addToHash] at h
    by_cases hk : k = h0
    · rw [if_pos hk] at h
      rcases List.mem_cons.mp h with rfl | h
      · exact Or.inl hk
      · exact Or.inr (List.mem_cons_of_mem _ h)
    · rw [if_neg hk] at h
      rcases List.mem_cons.mp h with rfl | h
      · exact Or.inr (List.mem_cons_self _ _)
      · rcases ih h with h2 | h2
        · exact Or.inl h2
        · exact Or.inr (List.mem_cons_of_mem _ h2)

theorem addToGroup_keysOK (m : List (Nat × List DupIn)) (f : DupIn)
    (h : KeysOKG m) : KeysOKG (addToGroup m f) := by
  induction m with
  | nil => simp [addToGroup, KeysOKG]
  | cons b t ih =>
    obtain ⟨s, g⟩ := b
    rw [KeysOKG, List.pairwise_cons] at h
    simp only [addToGroup]
    by_cases hs : s = f.size
    · rw [if_pos hs, KeysOKG, List.pairwise_cons]
      exact h
    · rw [if_neg hs, KeysOKG, List.pairwise_cons]
      refine ⟨?_, ih h.2⟩
      intro a ha
      rcases mem_addToGroup t f a ha with h2 | h2
      · rw [h2]; exact hs
      · exact h.1 a h2

theorem addToHash_keysOK (m : List (Str × List DupIn)) (h0 : Str) (f : DupIn)
    (h : KeysOKH m) : KeysOKH (addToHash m h0 f) := by
  induction m with
  | nil => simp [addToHash, KeysOKH]
  | cons b t ih =>
    obtain ⟨k, g⟩ := b
    rw [KeysOKH, List.pairwise_cons] at h
    simp only [addToHash]
    by_cases hk : k = h0
    · rw [if_pos hk, KeysOKH, List.pairwise_cons]
      exact h
    · rw [if_neg hk, KeysOKH, List.pairwise_cons]
      refine ⟨?_, ih h.2⟩
      intro a ha
      rcases mem_addToHash t h0 f a ha with h2 | h2
      · rw [h2]; exact hk
      · exact h.1 a h2

theorem lookupG_mem (m : List (Nat × List DupIn)) (s : Nat) (g : List DupIn)
    (hok : KeysOKG m) (h : (s, g) ∈ m) : lookupG m s = g := by
  induction m with
  | nil => cases h
  | cons b t ih =>
    obtain ⟨k, w⟩ := b
    rw [KeysOKG, List.pairwise_cons] at hok
    rcases List.mem_cons.mp h with h2 | h2
    · cases h2
      simp [lookupG]
    · have hk : ¬ k = s := fun h3 => (h3 ▸ hok.1 (s, g) h2) rfl
      rw [lookupG, if_neg hk]
      exact ih hok.2 h2

theorem lookupH_mem (m : List (Str × List DupIn)) (s : Str) (g : List DupIn)
    (hok : KeysOKH m) (h : (s, g) ∈ m) : lookupH m s = g := by
  induction m with
  | nil => cases h
  | cons b t ih =>
    obtain ⟨k, w⟩ := b
    rw [KeysOKH, List.pairwise_cons] at hok
    rcases List.mem_cons.mp h with h2 | h2
    · cases h2
      simp [lookupH]
    · have hk : ¬ k = s := fun h3 => (h3 ▸ hok.1 (s, g) h2) rfl
      rw [lookupH, if_neg hk]
      exact ih hok.2 h2

theorem foldG_keysOK (l : List DupIn) : ∀ m, KeysOKG m → KeysOKG (l.foldl addToGroup m) := by
  induction l with
  | nil => intro m hm; exact hm
  | cons f t ih =>
    intro m hm
    exact ih _ (addToGroup_keysOK m f hm)

theorem hashfold_keysOK (hash : Str → Option Str) (l : List DupIn) :
    ∀ m, KeysOKH m → KeysOKH (l.foldl (hashStep hash) m) := by
  induction l with
  | nil => intro m hm; exact hm
  | cons f t ih =>
    intro m hm
    apply ih
    cases hh : hash f.path with
    | none => simpa [hashStep, hh] using hm
    | some h2 =>
      rw [show hashStep hash m f = addToHash m h2 f by simp [hashStep, hh]]
      exact addToHash_keysOK m h2 f hm

/-- The per-group contributions making up one hash bucket. -/
def bucketParts (hash : Str → Option Str) (gs : List (Nat × List DupIn)) (q : Str) :
    List DupIn :=
  (gs.map (fun sg => if 1 < sg.2.length then
    sg.2.filter (fun f => hash f.path == some q) else [])).join

theorem lookupH_build (hash : Str → Option Str) (gs : List (Nat × List DupIn)) :
    ∀ (m : List (Str × List DupIn)) (q : Str),
    lookupH (gs.foldl (fun m sg =>
        if 1 < sg.2.length then sg.2.foldl (hashStep hash) m else m) m) q =
      lookupH m q ++ bucketParts hash gs q := by
  induction gs with
  | nil => intro m q; simp [bucketParts]
  | cons sg gs' ih =>
    intro m q
    simp only [List.foldl_cons, bucketParts, List.map_cons, List.join]
    by_cases hl : 1 < sg.2.length
    · rw [if_pos hl, if_pos hl, ih, lookupH_hashfold]
      simp [bucketParts, List.append_assoc]
    · rw [if_neg hl, if_neg hl, ih]
      simp [bucketParts]

theorem build_keysOK (hash : Str → Option Str) (gs : List (Nat × List DupIn)) :
    ∀ m, KeysOKH m → KeysOKH (gs.foldl (fun m sg =>
      if 1 < sg.2.length then sg.2.foldl (hashStep hash) m else m) m) := by
  induction gs with
  | nil => intro m hm; exact hm
  | cons sg gs' ih =>
    intro m hm
    apply ih
    dsimp only
    by_cases hl : 1 < sg.2.length
    · rw [if_pos hl]
      exact hashfold_keysOK hash sg.2 m hm
    · rw [if_neg hl]
      exact hm

theorem sizeGroups_entry (files : List DupIn) (sg : Nat × List DupIn)
    (h : sg ∈ sizeGroupsOf files) :
    sg.2 = (files.filter (fun f => !(f.size == 0))).filter (fun f => f.size == sg.1) := by
  have hok := foldG_keysOK (files.filter (fun f => !(f.size == 0))) [] (by simp [KeysOKG])
  have hv := lookupG_mem _ sg.1 sg.2 hok (by rwa [show (sg.1, sg.2) = sg from rfl])
  rw [← hv, lookupG_fold]
  rfl

theorem bucketParts_mem (hash : Str → Option Str) (gs : List (Nat × List DupIn)) (q : Str)
    (f : DupIn) (h : f ∈ bucketParts hash gs q) :
    ∃ sg ∈ gs, 1 < sg.2.length ∧ f ∈ sg.2 ∧ hash f.path = some q := by
  simp only [bucketParts, List.mem_join] at h
  obtain ⟨l, hl, hf⟩ := h
  obtain ⟨sg, hsg, rfl⟩ := List.mem_map.mp hl
  by_cases hlen : 1 < sg.2.length
  · rw [if_pos hlen] at hf
    have := List.mem_filter.mp hf
    exact ⟨sg, hsg, hlen, this.1, beq_iff_eq.mp this.2⟩
  · rw [if_neg hlen] at hf
    cases hf

theorem bucketParts_sublist (hash : Str → Option Str) (files0 : List DupIn) (q : Str)
    (hsz : ∀ f1 ∈ files0, ∀ f2 ∈ files0, ∀ h : Str, hash f1.path = some h →
      hash f2.path = some h → f1.size = f2.size) :
    ∀ gs : List (Nat × List DupIn),
    (∀ sg ∈ gs, sg.2 = files0.filter (fun f => f.size == sg.1)) →
    KeysOKG gs →
    (bucketParts hash gs q).Sublist files0 := by
  intro gs
  induction gs with
  | nil =>
    intro _ _
    simp [bucketParts]
  | cons sg gs' ih =>
    intro hgs hkeys
    rw [KeysOKG, List.pairwise_cons] at hkeys
    have hstep : bucketParts hash (sg :: gs') q =
        (if 1 < sg.2.length then sg.2.filter (fun f => hash f.path == some q) else []) ++
          bucketParts hash gs' q := by
      simp [bucketParts, List.join]
    rw [hstep]
    by_cases he : (if 1 < sg.2.length then
        sg.2.filter (fun f => hash f.path == some q) else []) = []
    · rw [he, List.nil_append]
      exact ih (fun a ha => hgs a (List.mem_cons_of_mem _ ha)) hkeys.2
    · obtain ⟨f0, hf0⟩ := List.exists_mem_of_ne_nil _ he
      by_cases hlen : 1 < sg.2.length
      · rw [if_pos hlen] at hf0
        have hf0f := List.mem_filter.mp hf0
        have hf0h : hash f0.path = some q := beq_iff_eq.mp hf0f.2
        have hsg2 := hgs sg (List.mem_cons_self _ _)
        have hf0mem : f0 ∈ files0 ∧ f0.size = sg.1 := by
          have := List.mem_filter.mp (hsg2 ▸ hf0f.1)
          exact ⟨this.1, beq_iff_eq.mp this.2⟩
        have hrest : bucketParts hash gs' q = [] := by
          by_contra hne
          obtain ⟨f1, hf1⟩ := List.exists_mem_of_ne_nil _ hne
          obtain ⟨sg', hsg', _, hf1m, hf1h⟩ := bucketParts_mem hash gs' q f1 hf1
          have hsg2' := hgs sg' (List.mem_cons_of_mem _ hsg')
          have hf1mem : f1 ∈ files0 ∧ f1.size = sg'.1 := by
            have := List.mem_filter.mp (hsg2' ▸ hf1m)
            exact ⟨this.1, beq_iff_eq.mp this.2⟩
          have heq := hsz f0 hf0mem.1 f1 hf1mem.1 q hf0h hf1h
          exact (hkeys.1 sg' hsg') (by rw [← hf0mem.2, heq, hf1mem.2])
        rw [hrest, List.append_nil, if_pos hlen, hsg2]
        exact ((List.filter_sublist _).trans (List.filter_sublist _))
      · rw [if_neg hlen] at hf0
        cases hf0

theorem markKeep_strip (g : List DupIn) :
    (markKeep g).map (fun m => (⟨m.path, m.name, m.size⟩ : DupIn)) = g := by
  cases g with
  | nil => rfl
  | cons f t =>
    simp only [markKeep, List.map_cons, List.map_map]
    exact congrArg (f :: ·) (List.map_id t)

theorem markKeep_length (g : List DupIn) : (markKeep g).length = g.length := by
  cases g with
  | nil => rfl
  | cons f t => simp [markKeep]

theorem markKeep_countP (g : List DupIn) (h : g ≠ []) :
    (markKeep g).countP (fun m => m.isKeep) = 1 := by
  cases g with
  | nil => exact absurd rfl h
  | cons f t =>
    simp only [markKeep, List.countP_cons]
    rw [List.countP_map]
    simp [Function.comp]

/-- Claim C6: every emitted duplicate group has at least 2 members, all of
which hash to the group's hash; exactly one member is marked keep, and it is
the first member; the group's member list is (under the ideal-hash modelling
hypothesis that equal hashes imply equal sizes) an in-order sublist of the
zero-byte-filtered input, so the keeper is the first member in input order
and no zero-byte file ever appears in a group. -/
theorem claim_C6 (files : List DupIn) (hash : Str → Option Str)
    (hsz : ∀ f1 ∈ files.filter (fun f => !(f.size == 0)),
      ∀ f2 ∈ files.filter (fun f => !(f.size == 0)), ∀ h : Str,
      hash f1.path = some h → hash f2.path = some h → f1.size = f2.size) :
    ∀ g ∈ detectDuplicates files hash,
      2 ≤ g.files.length ∧
      (∀ m ∈ g.files, hash m.path = some g.hash) ∧
      g.files.countP (fun m => m.isKeep) = 1 ∧
      (∃ m t, g.files = m :: t ∧ m.isKeep = true) ∧
      (g.files.map (fun m => (⟨m.path, m.name, m.size⟩ : DupIn))).Sublist
        (files.filter (fun f => !(f.size == 0))) ∧
      (∀ m ∈ g.files, m.size ≠ 0) := by
  intro g hg
  simp only [detectDuplicates, List.mem_filterMap] at hg
  obtain ⟨kg, hkg, hsome⟩ := hg
  by_cases hlen : 1 < kg.2.length
  swap
  · rw [if_neg hlen] at hsome; cases hsome
  rw [if_pos hlen] at hsome
  cases hsome
  have hok : KeysOKH (buildHashMap hash (sizeGroupsOf files)) :=
    build_keysOK hash (sizeGroupsOf files) [] (by simp [KeysOKH])
  have hv := lookupH_mem _ kg.1 kg.2 hok (by rwa [show (kg.1, kg.2) = kg from rfl])
  have hlook : lookupH (buildHashMap hash (sizeGroupsOf files)) kg.1 =
      bucketParts hash (sizeGroupsOf files) kg.1 := by
    rw [show buildHashMap hash (sizeGroupsOf files) =
      (sizeGroupsOf files).foldl (fun m sg =>
        if 1 < sg.2.length then sg.2.foldl (hashStep hash) m else m) [] from rfl,
      lookupH_build]
    rfl
  have hgrp : kg.2 = bucketParts hash (sizeGroupsOf files) kg.1 := by
    rw [← hv, hlook]
  have hmemhash : ∀ f ∈ kg.2, hash f.path = some kg.1 := by
    intro f hf
    rw [hgrp] at hf
    obtain ⟨sg, _, _, _, hh⟩ := bucketParts_mem hash _ kg.1 f hf
    exact hh
  have hsubl : (kg.2).Sublist (files.filter (fun f => !(f.size == 0))) := by
    rw [hgrp]
    apply bucketParts_sublist hash _ kg.1 hsz
    · intro sg hsg
      exact sizeGroups_entry files sg hsg
    · have : KeysOKG (sizeGroupsOf files) :=
        foldG_keysOK _ [] (by simp [KeysOKG])
      exact this
  have hne : kg.2 ≠ [] := by
    intro h2
    rw [h2] at hlen
    simp at hlen
  refine ⟨?_, ?_, ?_, ?_, ?_, ?_⟩
  · show 2 ≤ (markKeep kg.2).length
    rw [markKeep_length]
    omega
  · intro m hm
    have : (⟨m.path, m.name, m.size⟩ : DupIn) ∈ kg.2 := by
      rw [← markKeep_strip kg.2]
      exact List.mem_map_of_mem _ hm
    exact hmemhash _ this
  · exact markKeep_countP kg.2 hne
  · cases hg2 : kg.2 with
    | nil => exact absurd hg2 hne
    | cons f t =>
      refine ⟨⟨f.path, f.name, f.size, true⟩, t.map
        (fun x => ⟨x.path, x.name, x.size, false⟩), ?_, rfl⟩
      rfl
  · rw [markKeep_strip]
    exact hsubl
  · intro m hm
    have hmem : (⟨m.path, m.name, m.size⟩ : DupIn) ∈ kg.2 := by
      rw [← markKeep_strip kg.2]
      exact List.mem_map_of_mem _ hm
    have := List.mem_filter.mp (hsubl.subset hmem)
    have h2 := this.2
    simp only [Bool.not_eq_true'] at h2
    rw [beq_eq_false_iff_ne] at h2
    exact h2

/-- Witness for C6: the invariants evaluated on a concrete input with two
identical files, one same-size different-content file and one zero-byte
file. -/
theorem claim_C6_witness :
    2 ≤ (⟨str "H1", [⟨str "a", str "a", 5, true⟩, ⟨str "b", str "b", 5, false⟩]⟩ :
      DupGroup).files.length ∧
    (∀ m ∈ (⟨str "H1", [⟨str "a", str "a", 5, true⟩,
        ⟨str "b", str "b", 5, false⟩]⟩ : DupGroup).files,
      (fun p => if p == str "a" then some (str "H1") else
        if p == str "b" then some (str "H1") else
        if p == str "c" then some (str "H2") else none) m.path =
        some (⟨str "H1", [⟨str "a", str "a", 5, true⟩,
          ⟨str "b", str "b", 5, false⟩]⟩ : DupGroup).hash) ∧
    (⟨str "H1", [⟨str "a", str "a", 5, true⟩, ⟨str "b", str "b", 5, false⟩]⟩ :
      DupGroup).files.countP (fun m => m.isKeep) = 1 ∧
    (∃ m t, (⟨str "H1", [⟨str "a", str "a", 5, true⟩,
        ⟨str "b", str "b", 5, false⟩]⟩ : DupGroup).files = m :: t ∧
      m.isKeep = true) ∧
    ((⟨str "H1", [⟨str "a", str "a", 5, true⟩, ⟨str "b", str "b", 5, false⟩]⟩ :
        DupGroup).files.map (fun m => (⟨m.path, m.name, m.size⟩ : DupIn))).Sublist
      (([⟨str "a", str "a", 5⟩, ⟨str "z", str "z", 0⟩,
         ⟨str "b", str "b", 5⟩, ⟨str "c", str "c", 5⟩] : List DupIn).filter
        (fun f => !(f.size == 0))) ∧
    (∀ m ∈ (⟨str "H1", [⟨str "a", str "a", 5, true⟩,
        ⟨str "b", str "b", 5, false⟩]⟩ : DupGroup).files, m.size ≠ 0) :=
  claim_C6
    [⟨str "a", str "a", 5⟩, ⟨str "z", str "z", 0⟩,
     ⟨str "b", str "b", 5⟩, ⟨str "c", str "c", 5⟩]
    (fun p => if p == str "a" then some (str "H1") else
      if p == str "b" then some (str "H1") else
      if p == str "c" then some (str "H2") else none)
    (by decide)
    ⟨str "H1", [⟨str "a", str "a", 5, true⟩, ⟨str "b", str "b", 5, false⟩]⟩
    (by decide)

/-- Witness for C4: the general parts applied at the concrete runs; the
failing run's engine is returned unchanged and the succeeding run pushes its
log. -/
theorem claim_C4_witness :
    (executeOrganize (str "tmp") 5
        ⟨⟨[(str "tmp/zhili-backup-5", str "occupied")], [str "tmp"]⟩, []⟩
        ⟨str "home/u", [], [], []⟩).1 =
      ⟨⟨[(str "tmp/zhili-backup-5", str "occupied")], [str "tmp"]⟩, []⟩ ∧
    ∃ log, (executeOrganize (str "tmp") 5
        ⟨⟨[], [str "tmp"]⟩, []⟩ ⟨str "home/u", [], [], []⟩).1.undoStack = log :: [] := by
  exact ⟨claim_C4.1 (str "tmp") 5 _ _ (by decide), claim_C4.2.1 (str "tmp") 5 ⟨⟨[], [str "tmp"]⟩, []⟩ _ (by decide)⟩

/-- Phase 2 of `fs:executeOrganize` with its undo: every recorded move or
rename was onto a destination that did not previously exist (conflict
resolution guarantees it), so replaying the recorded operations in reverse
restores every moved and renamed file to its original path and bumps the
restored counter once per recorded operation.  No hypothesis beyond
file/directory disjointness is needed: a skipped file (target equals its
path) and a caught per-file failure both record nothing and change
nothing. -/
theorem phase2_undo (folder : Str) (files : List PlanFile) :
    ∀ (st : FS × List Op),
    Disj st.1 →
    ∃ newops,
      (files.foldl (execFileStep folder) st).2 = st.2 ++ newops ∧
      Disj (files.foldl (execFileStep folder) st).1 ∧
      ∀ n, fsEq (undoAll newops.reverse
          ((files.foldl (execFileStep folder) st).1, n)).1 st.1 ∧
        (undoAll newops.reverse
          ((files.foldl (execFileStep folder) st).1, n)).2 = n + newops.length := by
  induction files with
  | nil =>
    intro st hdisj
    exact ⟨[], by simp, hdisj, fun n => ⟨fsEq_refl _, rfl⟩⟩
  | cons f rest ih =>
    intro st hdisj
    obtain ⟨fs, ops0⟩ := st
    rw [List.foldl_cons]
    by_cases ht : (targetOf folder f == f.path) = true
    · have hstep : execFileStep folder (fs, ops0) f = (fs, ops0) := by
        simp only [execFileStep]
        rw [if_pos ht]
      rw [hstep]
      exact ih (fs, ops0) hdisj
    · cases hr : renameF fs f.path (resolveConflict fs (targetOf folder f)) with
      | none =>
        have hstep : execFileStep folder (fs, ops0) f = (fs, ops0) := by
          simp only [execFileStep]
          rw [if_neg ht, hr]
        rw [hstep]
        exact ih (fs, ops0) hdisj
      | some fs2 =>
        obtain ⟨c, hsrc, hdst, rfl⟩ := renameF_eq_some hr
        have hfin := resolveConflict_fresh fs (targetOf folder f)
        have hfp := existsP_false fs _ hfin
        have hstep : execFileStep folder (fs, ops0) f =
            (setFile (delFile fs f.path) (resolveConflict fs (targetOf folder f)) c,
             ops0 ++ [⟨if f.needsMove then OpType.move else OpType.rename, f.path,
               some (resolveConflict fs (targetOf folder f)), none⟩]) := by
          simp only [execFileStep]
          rw [if_neg ht, hr]
        rw [hstep]
        have hdisj2 :
            Disj (setFile (delFile fs f.path)
              (resolveConflict fs (targetOf folder f)) c) :=
          disj_setFile (disj_delFile hdisj f.path)
            (by rw [isDirAt_delFile]; exact hfp.2) c
        obtain ⟨newops, hops, hdisj3, hundo⟩ :=
          ih (setFile (delFile fs f.path) (resolveConflict fs (targetOf folder f)) c,
              ops0 ++ [⟨if f.needsMove then OpType.move else OpType.rename, f.path,
                some (resolveConflict fs (targetOf folder f)), none⟩])
            hdisj2
        refine ⟨⟨if f.needsMove then OpType.move else OpType.rename, f.path,
          some (resolveConflict fs (targetOf folder f)), none⟩ :: newops, ?_, hdisj3, ?_⟩
        · rw [hops, List.append_assoc]
          rfl
        · intro n
          have hty : (if f.needsMove then OpType.move else OpType.rename) = OpType.move ∨
              (if f.needsMove then OpType.move else OpType.rename) = OpType.rename := by
            cases f.needsMove
            · exact Or.inr rfl
            · exact Or.inl rfl
          have hinv := rename_inversion fs f.path
            (resolveConflict fs (targetOf folder f)) c
            (if f.needsMove then OpType.move else OpType.rename)
            (n + newops.length) hty hsrc hfin hdisj
          have h1 := hundo n
          have hcomp := undo_compose _ _ _ _ _ _ _ _ h1.1 h1.2 hinv.1 hinv.2
          refine ⟨hcomp.1, ?_⟩
          rw [hcomp.2, List.length_cons]
          omega

/-- Phase 3 of `fs:executeOrganize` with its undo: under the hypothesis
that each duplicate's computed backup path is absent at the moment its step
runs (timestamps make backup names distinct in practice), every recorded
relocate-duplicate operation is inverted exactly by its undo (copy the
backup back, then unlink the backup), and a caught per-file failure records
nothing and changes nothing. -/
theorem phase3_undo (bdir : Str) (dups : List Str) :
    ∀ (st : FS × List Op × Nat),
    Disj st.1 →
    (∀ j (hj : j < dups.length),
      existsP ((dups.take j).foldl (execDupStep bdir) st).1
        (joinP bdir (backupName (dups.get ⟨j, hj⟩) (st.2.2 + j))) = false) →
    ∃ newops,
      (dups.foldl (execDupStep bdir) st).2.1 = st.2.1 ++ newops ∧
      Disj (dups.foldl (execDupStep bdir) st).1 ∧
      ∀ n, fsEq (undoAll newops.reverse
          ((dups.foldl (execDupStep bdir) st).1, n)).1 st.1 ∧
        (undoAll newops.reverse
          ((dups.foldl (execDupStep bdir) st).1, n)).2 = n + newops.length := by
  induction dups with
  | nil =>
    intro st hdisj _
    exact ⟨[], by simp, hdisj, fun n => ⟨fsEq_refl _, rfl⟩⟩
  | cons d rest ih =>
    intro st hdisj hfresh
    obtain ⟨fs, ops0, t⟩ := st
    have h0 : existsP fs (joinP bdir (backupName d t)) = false := by
      have h00 := hfresh 0 (by simp)
      simpa using h00
    rw [List.foldl_cons]
    cases hc : copyF fs d (joinP bdir (backupName d t)) with
    | none =>
      have hstep : execDupStep bdir (fs, ops0, t) d = (fs, ops0, t + 1) := by
        simp only [execDupStep]
        rw [hc]
      rw [hstep]
      apply ih (fs, ops0, t + 1) hdisj
      intro j hj
      have hj2 : j + 1 < (d :: rest).length := by
        simpa using Nat.succ_lt_succ hj
      have h2 := hfresh (j + 1) hj2
      rw [List.take_succ_cons, List.foldl_cons, hstep] at h2
      have harith : t + (j + 1) = t + 1 + j := by omega
      rw [harith] at h2
      simpa using h2
    | some fs1 =>
      obtain ⟨c, hsrc, hbd, rfl⟩ := copyF_eq_some hc
      have hul : unlinkF (setFile fs (joinP bdir (backupName d t)) c) d =
          some (delFile (setFile fs (joinP bdir (backupName d t)) c) d) := by
        apply unlinkF_some
        rw [fileAt_setFile]
        by_cases h2 : d = joinP bdir (backupName d t)
        · rw [if_pos h2]
        · rw [if_neg h2]
          exact hsrc
      have hstep : execDupStep bdir (fs, ops0, t) d =
          (delFile (setFile fs (joinP bdir (backupName d t)) c) d,
           ops0 ++ [⟨OpType.delete, d, none, some (joinP bdir (backupName d t))⟩],
           t + 1) := by
        simp only [execDupStep, hc, hul]
      rw [hstep]
      have hfp := existsP_false fs _ h0
      have hdisj2 :
          Disj (delFile (setFile fs (joinP bdir (backupName d t)) c) d) :=
        disj_delFile (disj_setFile hdisj hfp.2 c) d
      obtain ⟨newops, hops, hdisj3, hundo⟩ :=
        ih (delFile (setFile fs (joinP bdir (backupName d t)) c) d,
            ops0 ++ [⟨OpType.delete, d, none, some (joinP bdir (backupName d t))⟩],
            t + 1)
          hdisj2
          (by
            intro j hj
            have hj2 : j + 1 < (d :: rest).length := by
              simpa using Nat.succ_lt_succ hj
            have h2 := hfresh (j + 1) hj2
            rw [List.take_succ_cons, List.foldl_cons, hstep] at h2
            have harith : t + (j + 1) = t + 1 + j := by omega
            rw [harith] at h2
            simpa using h2)
      refine ⟨⟨OpType.delete, d, none, some (joinP bdir (backupName d t))⟩ :: newops,
        ?_, hdisj3, ?_⟩
      · rw [hops, List.append_assoc]
        rfl
      · intro n
        have hinv := delete_inversion fs d (joinP bdir (backupName d t)) c
          (n + newops.length) hsrc h0 hdisj
        have h1 := hundo n
        have hcomp := undo_compose _ _ _ _ _ _ _ _ h1.1 h1.2 hinv.2.2.1 hinv.2.2.2
        refine ⟨hcomp.1, ?_⟩
        rw [hcomp.2, List.length_cons]
        omega

/-- Undo composition across the three execution phases: replaying the full
log in reverse first inverts phase 3, then phase 2, then phase 1. -/
theorem undo_three_phases (A B C fs0 : FS) (ops1 ops2 ops3 ops : List Op)
    (hops : ops = (ops1 ++ ops2) ++ ops3)
    (h1 : ∀ n, fsEq (undoAll ops1.reverse (A, n)).1 fs0 ∧
      (undoAll ops1.reverse (A, n)).2 = n)
    (h2 : ∀ n, fsEq (undoAll ops2.reverse (B, n)).1 A ∧
      (undoAll ops2.reverse (B, n)).2 = n + ops2.length)
    (h3 : ∀ n, fsEq (undoAll ops3.reverse (C, n)).1 B ∧
      (undoAll ops3.reverse (C, n)).2 = n + ops3.length) :
    fsEq (undoAll ops.reverse (C, 0)).1 fs0 := by
  subst hops
  rw [List.reverse_append, List.reverse_append, undoAll_append, undoAll_append]
  have h3' := h3 0
  have hX3 : undoAll ops3.reverse (C, 0) =
      ((undoAll ops3.reverse (C, 0)).1, 0 + ops3.length) := by
    rw [← h3'.2]
  rw [hX3]
  have hc2 := undoAll_congr ops2.reverse (0 + ops3.length) h3'.1
  have h2' := h2 (0 + ops3.length)
  have hX2 : undoAll ops2.reverse ((undoAll ops3.reverse (C, 0)).1, 0 + ops3.length) =
      ((undoAll ops2.reverse
          ((undoAll ops3.reverse (C, 0)).1, 0 + ops3.length)).1,
       0 + ops3.length + ops2.length) := by
    rw [← hc2.2.trans h2'.2]
  rw [hX2]
  have hfs2 : fsEq (undoAll ops2.reverse
      ((undoAll ops3.reverse (C, 0)).1, 0 + ops3.length)).1 A :=
    fsEq_trans hc2.1 h2'.1
  have hc1 := undoAll_congr ops1.reverse (0 + ops3.length + ops2.length) hfs2
  have h1' := h1 (0 + ops3.length + ops2.length)
  exact fsEq_trans hc1.1 h1'.1

/-- Claim C1 (amended): for a plan whose execution completes successfully
(the backup area is created fresh), with a well-formed starting state —
files and directories disjoint, nothing stored under the candidate category
paths, slash-free category names, the backup directory outside the organize
tree — and with every duplicate's computed backup path fresh at the moment
its step runs (the `Date.now()` timestamps guarantee this in practice),
invoking undo immediately afterward pops the pushed log, replays it in
strict reverse order, restores every moved, renamed, and duplicate-relocated
file to its original path, and removes every directory the execution
created EXCEPT the per-run backup directory: the execution creates the
backup directory without recording any operation for it, so undo leaves it
behind — the original claim's "removes every directory the execution
created and only those directories" is refuted by this directory (see the
counterexample), while no other directory is added or removed. -/
theorem claim_C1 (tempDir : Str) (t0 : Nat) (e : Engine) (plan : Plan)
    (bdir : Str)
    (hbdir : bdir = joinP tempDir (str "zhili-backup-" ++ natToStr t0))
    (fs0 : FS) (hfs0 : fs0 = ⟨e.fs.files, bdir :: e.fs.dirs⟩)
    (st2 : FS × List Op)
    (hst2 : st2 = plan.files.foldl (execFileStep plan.folderPath)
        (plan.categories.foldl (execDirsStep plan.folderPath) (fs0, [])))
    (hdisj : e.fs.files.all (fun en => !(isDirAt e.fs en.1)) = true)
    (hfresh0 : existsP e.fs bdir = false)
    (hsf : ∀ c ∈ plan.categories, '/' ∉ c)
    (hnu : ∀ c ∈ plan.categories, anyUnder e.fs (joinP plan.folderPath c) = false)
    (hbnu : ∀ c ∈ plan.categories, under bdir (joinP plan.folderPath c) = false)
    (hfresh3 : ∀ j (hj : j < plan.duplicatesToDelete.length),
      existsP ((plan.duplicatesToDelete.take j).foldl (execDupStep bdir)
          (st2.1, st2.2, t0 + 1)).1
        (joinP bdir (backupName (plan.duplicatesToDelete.get ⟨j, hj⟩)
          (t0 + 1 + j))) = false) :
    (executeOrganize tempDir t0 e plan).2.success = true ∧
    (executeOrganize tempDir t0 e plan).1.undoStack =
      (plan.duplicatesToDelete.foldl (execDupStep bdir) (st2.1, st2.2, t0 + 1)).2.1
        :: e.undoStack ∧
    (undoOrganize (executeOrganize tempDir t0 e plan).1).2.success = true ∧
    (undoOrganize (executeOrganize tempDir t0 e plan).1).1.undoStack = e.undoStack ∧
    (∀ p, fileAt (undoOrganize (executeOrganize tempDir t0 e plan).1).1.fs p =
      fileAt e.fs p) ∧
    (∀ dd, isDirAt (undoOrganize (executeOrganize tempDir t0 e plan).1).1.fs dd =
      ((bdir == dd) || isDirAt e.fs dd)) := by
  subst hst2
  have hfp0 := existsP_false e.fs bdir hfresh0
  have hmk : mkdirp e.fs bdir = some fs0 := by
    rw [hfs0]
    simp only [mkdirp, hfp0.1, hfp0.2]
    simp
  have hDisj0 : Disj fs0 := by
    rw [hfs0]
    exact disj_addDir e.fs bdir (files_all_disj e.fs hdisj) hfp0.1
  obtain ⟨ops1, hops1, hfl1, hDisj1, hundo1⟩ :=
    phase1_undo plan.folderPath plan.categories (fs0, []) hDisj0 hsf
      (by
        intro c hc en hen
        rw [hfs0] at hen
        exact (anyUnder_false e.fs _ (hnu c hc)).1 en hen)
      (by
        intro c hc d hd
        rw [hfs0] at hd
        rcases List.mem_cons.mp hd with rfl | hd2
        · exact Or.inl (hbnu c hc)
        · exact Or.inl ((anyUnder_false e.fs _ (hnu c hc)).2 d hd2))
  obtain ⟨ops2, hops2, hDisj2, hundo2⟩ :=
    phase2_undo plan.folderPath plan.files
      (plan.categories.foldl (execDirsStep plan.folderPath) (fs0, [])) hDisj1
  obtain ⟨ops3, hops3, hDisj3, hundo3⟩ :=
    phase3_undo bdir plan.duplicatesToDelete
      ((plan.files.foldl (execFileStep plan.folderPath)
          (plan.categories.foldl (execDirsStep plan.folderPath) (fs0, []))).1,
       (plan.files.foldl (execFileStep plan.folderPath)
          (plan.categories.foldl (execDirsStep plan.folderPath) (fs0, []))).2,
       t0 + 1) hDisj2 hfresh3
  have htot : (plan.duplicatesToDelete.foldl (execDupStep bdir)
      ((plan.files.foldl (execFileStep plan.folderPath)
          (plan.categories.foldl (execDirsStep plan.folderPath) (fs0, []))).1,
       (plan.files.foldl (execFileStep plan.folderPath)
          (plan.categories.foldl (execDirsStep plan.folderPath) (fs0, []))).2,
       t0 + 1)).2.1 = (ops1 ++ ops2) ++ ops3 := by
    rw [hops3]
    dsimp only
    rw [hops2, hops1]
    simp
  have hkey := undo_three_phases
    (plan.categories.foldl (execDirsStep plan.folderPath) (fs0, [])).1
    (plan.files.foldl (execFileStep plan.folderPath)
      (plan.categories.foldl (execDirsStep plan.folderPath) (fs0, []))).1
    (plan.duplicatesToDelete.foldl (execDupStep bdir)
      ((plan.files.foldl (execFileStep plan.folderPath)
          (plan.categories.foldl (execDirsStep plan.folderPath) (fs0, []))).1,
       (plan.files.foldl (execFileStep plan.folderPath)
          (plan.categories.foldl (execDirsStep plan.folderPath) (fs0, []))).2,
       t0 + 1)).1
    fs0 ops1 ops2 ops3
    (plan.duplicatesToDelete.foldl (execDupStep bdir)
      ((plan.files.foldl (execFileStep plan.folderPath)
          (plan.categories.foldl (execDirsStep plan.folderPath) (fs0, []))).1,
       (plan.files.foldl (execFileStep plan.folderPath)
          (plan.categories.foldl (execDirsStep plan.folderPath) (fs0, []))).2,
       t0 + 1)).2.1
    htot hundo1 hundo2 hundo3
  simp only [executeOrganize]
  rw [← hbdir, hmk]
  refine ⟨rfl, rfl, rfl, rfl, ?_, ?_⟩
  · intro p
    exact (hkey.1 p).trans (by rw [hfs0]; rfl)
  · intro dd
    refine (hkey.2 dd).trans ?_
    rw [hfs0]
    simp [isDirAt]

/-- Witness for claim C1: a concrete run with one category directory, one
planned move and one duplicate removal is executed and fully undone — the
moved file and the duplicate are back at their original paths with their
original bytes, the created category directory is gone, the per-run backup
directory persists, and the undo stack is popped back to empty. -/
theorem claim_C1_witness :
    (executeOrganize (str "tmp") 7
        ⟨⟨[(str "home/u/a1.jpg", str "AAA"), (str "home/u/dup.txt", str "DDD")],
          [str "home", str "home/u", str "tmp"]⟩, []⟩
        ⟨str "home/u", [str "pics"],
         [⟨str "home/u/a1.jpg", str "pics", str "a1.jpg", true, false⟩],
         [str "home/u/dup.txt"]⟩).2.success = true ∧
    (undoOrganize (executeOrganize (str "tmp") 7
        ⟨⟨[(str "home/u/a1.jpg", str "AAA"), (str "home/u/dup.txt", str "DDD")],
          [str "home", str "home/u", str "tmp"]⟩, []⟩
        ⟨str "home/u", [str "pics"],
         [⟨str "home/u/a1.jpg", str "pics", str "a1.jpg", true, false⟩],
         [str "home/u/dup.txt"]⟩).1).1.undoStack = [] ∧
    fileAt (undoOrganize (executeOrganize (str "tmp") 7
        ⟨⟨[(str "home/u/a1.jpg", str "AAA"), (str "home/u/dup.txt", str "DDD")],
          [str "home", str "home/u", str "tmp"]⟩, []⟩
        ⟨str "home/u", [str "pics"],
         [⟨str "home/u/a1.jpg", str "pics", str "a1.jpg", true, false⟩],
         [str "home/u/dup.txt"]⟩).1).1.fs (str "home/u/a1.jpg") =
      some (str "AAA") ∧
    fileAt (undoOrganize (executeOrganize (str "tmp") 7
        ⟨⟨[(str "home/u/a1.jpg", str "AAA"), (str "home/u/dup.txt", str "DDD")],
          [str "home", str "home/u", str "tmp"]⟩, []⟩
        ⟨str "home/u", [str "pics"],
         [⟨str "home/u/a1.jpg", str "pics", str "a1.jpg", true, false⟩],
         [str "home/u/dup.txt"]⟩).1).1.fs (str "home/u/dup.txt") =
      some (str "DDD") ∧
    isDirAt (undoOrganize (executeOrganize (str "tmp") 7
        ⟨⟨[(str "home/u/a1.jpg", str "AAA"), (str "home/u/dup.txt", str "DDD")],
          [str "home", str "home/u", str "tmp"]⟩, []⟩
        ⟨str "home/u", [str "pics"],
         [⟨str "home/u/a1.jpg", str "pics", str "a1.jpg", true, false⟩],
         [str "home/u/dup.txt"]⟩).1).1.fs (str "home/u/pics") = false ∧
    isDirAt (undoOrganize (executeOrganize (str "tmp") 7
        ⟨⟨[(str "home/u/a1.jpg", str "AAA"), (str "home/u/dup.txt", str "DDD")],
          [str "home", str "home/u", str "tmp"]⟩, []⟩
        ⟨str "home/u", [str "pics"],
         [⟨str "home/u/a1.jpg", str "pics", str "a1.jpg", true, false⟩],
         [str "home/u/dup.txt"]⟩).1).1.fs
      (joinP (str "tmp") (str "zhili-backup-" ++ natToStr 7)) = true := by
  have h := claim_C1 (str "tmp") 7
    ⟨⟨[(str "home/u/a1.jpg", str "AAA"), (str "home/u/dup.txt", str "DDD")],
      [str "home", str "home/u", str "tmp"]⟩, []⟩
    ⟨str "home/u", [str "pics"],
     [⟨str "home/u/a1.jpg", str "pics", str "a1.jpg", true, false⟩],
     [str "home/u/dup.txt"]⟩
    _ rfl _ rfl _ rfl (by decide) (by decide) (by decide) (by decide) (by decide)
    (by decide)
  exact ⟨h.1, h.2.2.2.1,
    (h.2.2.2.2.1 (str "home/u/a1.jpg")).trans (by decide),
    (h.2.2.2.2.1 (str "home/u/dup.txt")).trans (by decide),
    (h.2.2.2.2.2 (str "home/u/pics")).trans (by decide),
    (h.2.2.2.2.2 (joinP (str "tmp") (str "zhili-backup-" ++ natToStr 7))).trans
      (by decide)⟩

/-- Counterexample to claim C1 as literally stated: executing even an empty
plan creates the per-run backup directory but records no operation for it,
so undo does not remove it — execution creates a directory that undo never
removes, refuting "removes every directory the execution created and only
those directories". -/
theorem claim_C1_counterexample :
    (executeOrganize (str "tmp") 7
        ⟨⟨[(str "home/u/a.txt", str "A")], [str "home", str "home/u", str "tmp"]⟩, []⟩
        ⟨str "home/u", [], [], []⟩).2.success = true ∧
    isDirAt (⟨[(str "home/u/a.txt", str "A")],
        [str "home", str "home/u", str "tmp"]⟩ : FS) (str "tmp/zhili-backup-7") =
      false ∧
    isDirAt (executeOrganize (str "tmp") 7
        ⟨⟨[(str "home/u/a.txt", str "A")], [str "home", str "home/u", str "tmp"]⟩, []⟩
        ⟨str "home/u", [], [], []⟩).1.fs (str "tmp/zhili-backup-7") = true ∧
    isDirAt (undoOrganize (executeOrganize (str "tmp") 7
        ⟨⟨[(str "home/u/a.txt", str "A")], [str "home", str "home/u", str "tmp"]⟩, []⟩
        ⟨str "home/u", [], [], []⟩).1).1.fs (str "tmp/zhili-backup-7") = true := by
  decide

end ZFO
